import Mathlib

/-!
Verification of the aix_tool pipeline against its design specification.

The Python sources are shallowly embedded:
* strings are `List Char` with Python semantics for the string operations
  that the code uses (`strip`, `rstrip`, `lstrip`, `splitlines`, `lower`,
  `startswith`, the two `re.sub` calls of `clean_code_output`);
* ambient effects (HTTP transport, the downloader's network outcomes,
  `psutil` memory sampling) are passed in as explicit values, and observable
  side effects of the downloader (download attempts, sleeps) are returned as
  an event trace.
-/

namespace Aix

/-! ## Python character classes

`pySpaceCodes` lists the code points Python's `str.strip`/`str.isspace`
treat as whitespace; `lineBreakCodes` lists the `str.splitlines` boundaries
(CRLF is handled separately as a single boundary).
-/

/-- The backtick character, written via its code point. -/
def bt : Char := Char.ofNat 96

/-- Three consecutive backticks: the markdown fence delimiter. -/
def triple : List Char := [bt, bt, bt]

/-- Code points of Python `str` whitespace (as used by `strip`/`rstrip`/`lstrip`). -/
def pySpaceCodes : List Nat :=
  [9, 10, 11, 12, 13, 28, 29, 30, 31, 32, 133, 160, 5760, 8192, 8193, 8194,
   8195, 8196, 8197, 8198, 8199, 8200, 8201, 8202, 8232, 8233, 8239, 8287, 12288]

/-- Python whitespace test for a single character. -/
def pyIsSpace (c : Char) : Bool := pySpaceCodes.contains c.toNat

/-- Code points that `str.splitlines` treats as line boundaries. -/
def lineBreakCodes : List Nat := [10, 11, 12, 13, 28, 29, 30, 133, 8232, 8233]

/-- Line-boundary test for a single character. -/
def isLineBreak (c : Char) : Bool := lineBreakCodes.contains c.toNat

/-- Python `str.lstrip()`. -/
def pyLstrip (cs : List Char) : List Char := cs.dropWhile pyIsSpace

/-- Python `str.rstrip()`. -/
def pyRstrip (cs : List Char) : List Char := (cs.reverse.dropWhile pyIsSpace).reverse

/-- Python `str.strip()`. -/
def pyStrip (cs : List Char) : List Char := pyRstrip (pyLstrip cs)

/-- Worker for `splitlines`: `acc` holds the current line reversed. -/
def splitlinesAux : List Char → List Char → List (List Char)
  | acc, [] => if acc.isEmpty then [] else [acc.reverse]
  | acc, '\r' :: '\n' :: rest => acc.reverse :: splitlinesAux [] rest
  | acc, c :: cs =>
    if isLineBreak c then acc.reverse :: splitlinesAux [] cs
    else splitlinesAux (c :: acc) cs

/-- Python `str.splitlines()`. -/
def splitlines (cs : List Char) : List (List Char) := splitlinesAux [] cs

/-- Python `"\n".join(lines)`. -/
def joinLines : List (List Char) → List Char
  | [] => []
  | [l] => l
  | l :: ls => l ++ '\n' :: joinLines ls

/-! ## The first regex of `clean_code_output` (codegen.py line 11)

Pattern: three backticks, an optional tag out of `python|julia|html|javascript`,
a newline, a lazy interior, then a newline and three backticks; every
non-overlapping match is replaced by its interior.  The alternatives of the
opening delimiter are mutually exclusive (they differ in the character after
the backticks), so the backtracking search reduces to the first-match scan
implemented here.
-/

def tagPython : List Char := ['p', 'y', 't', 'h', 'o', 'n']

def tagJulia : List Char := ['j', 'u', 'l', 'i', 'a']

def tagHtml : List Char := ['h', 't', 'm', 'l']

def tagJavascript : List Char := ['j', 'a', 'v', 'a', 's', 'c', 'r', 'i', 'p', 't']

/-- An opening fence delimiter: three backticks, a tag, a newline. -/
def fenceOpen (tag : List Char) : List Char := triple ++ tag ++ ['\n']

/-- Length of the opening fence delimiter matching at the head, if any. -/
def openLen (cs : List Char) : Option Nat :=
  if (fenceOpen tagPython).isPrefixOf cs then some 10
  else if (fenceOpen tagJulia).isPrefixOf cs then some 9
  else if (fenceOpen tagHtml).isPrefixOf cs then some 8
  else if (fenceOpen tagJavascript).isPrefixOf cs then some 14
  else if (fenceOpen []).isPrefixOf cs then some 4
  else none

/-- The closing fence delimiter: a newline followed by three backticks. -/
def closePat : List Char := '\n' :: triple

/-- Split at the first occurrence of the closing delimiter: returns the
characters before it and the characters after it (the lazy interior of the
regex and the remainder of the scan). -/
def splitAtClose : List Char → Option (List Char × List Char)
  | [] => none
  | c :: cs =>
    if closePat.isPrefixOf (c :: cs) then some ([], cs.drop 3)
    else
      match splitAtClose cs with
      | none => none
      | some (i, r) => some (c :: i, r)

/-- Fuelled scan of the first `re.sub`: at each position, if an opening
delimiter matches and a closing delimiter follows, emit the interior and
continue after the match; otherwise advance one character.  The fuel only
serves structural recursion; `input.length` is always enough. -/
def sub1Fuel : Nat → List Char → List Char
  | 0, cs => cs
  | n + 1, cs =>
    match openLen cs with
    | some l =>
      match splitAtClose (cs.drop l) with
      | some (i, r) => i ++ sub1Fuel n r
      | none =>
        match cs with
        | [] => []
        | c :: t => c :: sub1Fuel n t
    | none =>
      match cs with
      | [] => []
      | c :: t => c :: sub1Fuel n t

/-- First substitution of `clean_code_output` (codegen.py line 11). -/
def sub1 (cs : List Char) : List Char := sub1Fuel cs.length cs

/-- Second substitution (codegen.py line 12): everything from the first
remaining triple backtick onward is deleted. -/
def sub2 : List Char → List Char
  | [] => []
  | c :: cs => if triple.isPrefixOf (c :: cs) then [] else c :: sub2 cs

/-! ## The line filter of `clean_code_output` (codegen.py lines 14-26) -/

/-- The literal prefixes of `line.startswith(('# ', '##', '###', '*', '-'))`. -/
def skipStarts : List (List Char) :=
  [['#', ' '], ['#', '#'], ['#', '#', '#'], ['*'], ['-']]

/-- The discourse markers checked case-insensitively. -/
def proseStarts : List (List Char) :=
  [['e', 'x', 'a', 'm', 'p', 'l', 'e'], ['n', 'o', 't', 'e'],
   ['o', 'u', 't', 'p', 'u', 't'], ['c', 'e', 'r', 't', 'a', 'i', 'n', 'l', 'y'],
   ['b', 'e', 'l', 'o', 'w'], ['h', 'e', 'r', 'e']]

/-- The line-discarding test of codegen.py line 20.  `Char.toLower` models
Python `str.lower` on the ASCII range, which is all the markers use. -/
def isFilteredLine (line : List Char) : Bool :=
  skipStarts.any (fun p => p.isPrefixOf line) ||
  proseStarts.any (fun p => p.isPrefixOf (line.map Char.toLower))

/-- One iteration of the loop of codegen.py lines 16-25: right-strip the
line, drop it when blank or matching a filtered prefix, otherwise keep it. -/
def keepLine (l : List Char) : Option (List Char) :=
  let r := pyRstrip l
  if r.isEmpty then none
  else if isFilteredLine r then none
  else if (pyLstrip r).isEmpty then none
  else some r

/-- The whole line-filtering loop. -/
def filterLines (ls : List (List Char)) : List (List Char) := ls.filterMap keepLine

/-- `clean_code_output` (codegen.py lines 9-26).  The `language` argument is
accepted and ignored exactly as in the source. -/
def clean_code_output (text : List Char) (_language : String) : List Char :=
  let code1 := sub1 text
  let code2 := sub2 code1
  let code3 := pyStrip code2
  let lines := splitlines code3
  let code_lines := filterLines lines
  pyStrip (joinLines code_lines)

/-- Does the text contain three consecutive backticks anywhere? -/
def hasTriple : List Char → Bool
  | [] => false
  | c :: cs => triple.isPrefixOf (c :: cs) || hasTriple cs

/-- Is the head line of a line list safe from the line filter?  Used to state
the hypothesis under which the sanitizer is idempotent. -/
def headNotFiltered : List (List Char) → Bool
  | [] => true
  | l :: _ => !isFilteredLine l

/-- Invariants of every line that survives the sanitizer: non-empty,
right-stripped, free of line-break characters and of fence delimiters. -/
def goodLine (l : List Char) : Prop :=
  l ≠ [] ∧ pyRstrip l = l ∧ (∀ c ∈ l, isLineBreak c = false) ∧ hasTriple l = false

/-- Does the text avoid starting with whitespace?  Used to state fence
extraction hypotheses decidably. -/
def headNotSpace (l : List Char) : Bool :=
  match l.head? with
  | none => true
  | some c => !pyIsSpace c

/-! ## Workspace capability prober (api.py lines 7-35)

A workspace record of the enumeration endpoint; per the backend interface
(spec section 6) every element has at least `slug`, the other fields are
optional.  `none` models an absent or JSON-null field.
-/

structure WsEntry where
  slug : String
  chatMode : Option String
  agentProvider : Option String
  chatModel : Option String
  agentModel : Option String
deriving DecidableEq

/-- The workspace configuration dict built at api.py line 31. -/
structure WorkspaceConfig where
  chat_model : Option String
  agent_model : Option String
  agent_provider : Option String
deriving DecidableEq

/-- One backend behavior as observed by the prober: whether the liveness
check of `GET /api/docs` came back 2xx without a transport failure, and the
outcome of `GET /api/v1/workspaces` (`none` models any transport failure,
non-2xx status or unparseable body — all of which surface as the
`requests.exceptions.RequestException` caught at api.py line 33). -/
structure ProbeBehavior where
  docsOk : Bool
  workspacesResult : Option (List WsEntry)
deriving DecidableEq

/-- `check_api_availability` (api.py lines 7-35).  The embedding is a total
function: every caught failure path returns a value, modelling that the
prober never raises. -/
def check_api_availability (workspace : String) (b : ProbeBehavior) :
    Bool × Option WorkspaceConfig :=
  if b.docsOk = false then (false, none)
  else
    match b.workspacesResult with
    | none => (false, none)
    | some workspaces =>
      let workspace_slugs := workspaces.map (·.slug)
      if workspace ∉ workspace_slugs then (false, none)
      else
        match workspaces.find? (fun ws => ws.slug == workspace) with
        | some ws => (true, some ⟨ws.chatModel, ws.agentModel, ws.agentProvider⟩)
        | none => (false, none)

/-! ## Chat/generation client (api.py lines 37-90) -/

/-- The fields of the parsed chat response body that the client reads.
`none` models an absent or JSON-null field (the code treats the two alike
through `dict.get` and falsiness checks); `metricsModel` is the
`metrics.model` path. -/
structure ResponseData where
  error : Option String
  textResponse : Option String
  metricsModel : Option String
  chatModel : Option String
deriving DecidableEq

/-- One transport outcome of the `POST .../chat` call: a non-2xx status
(`requests.exceptions.HTTPError` from `raise_for_status`), an unparseable
body (`requests.exceptions.JSONDecodeError` from `response.json()`), or a
parsed body. -/
inductive BackendResult where
  | transportError
  | parseError
  | parsed (data : ResponseData)
deriving DecidableEq

/-- The distinct failures `query_anythingllm` raises to its caller. -/
inductive QueryError where
  | httpError
  | jsonDecodeError
  | apiError (msg : String)
  | noValidResponse
deriving DecidableEq

/-- Python truthiness of an optional string: `None` and the empty string are
falsy. -/
def pyTruthy : Option String → Bool
  | none => false
  | some s => !s.isEmpty

/-- Python `x or d` for a string-valued `x` that may be `None`. -/
def pyOr (x : Option String) (d : String) : String :=
  match x with
  | none => d
  | some s => if s.isEmpty then d else s

/-- The `model_used` fallback chain of api.py lines 72-78, written as the
source's sequence of reassignments: each falsiness test (`if not
model_used`) either keeps the current value or replaces it. -/
def resolve_model_used (mode : String) (model : Option String)
    (workspace_config : Option WorkspaceConfig) (d : ResponseData) : String :=
  let m1 := d.metricsModel
  let m2 := if pyTruthy m1 then m1 else d.chatModel
  let m3 :=
    if pyTruthy m2 = false then
      match workspace_config with
      | some wc => if mode == "agent" then wc.agent_model else wc.chat_model
      | none => m2
    else m2
  if pyTruthy m3 = false then pyOr model "unknown" else m3.getD ""

/-- The outgoing request payload of api.py lines 44-54.  `model = none`
models the `model` key being omitted from the JSON body.  Note the fallback
reads the standalone `chat_model` and `agent_model` arguments; the
`workspace_config` argument is not consulted here. -/
structure ChatPayload where
  message : String
  mode : String
  model : Option String
deriving DecidableEq

/-- Payload construction (api.py lines 44-54). -/
def build_payload (prompt mode : String) (model chat_model agent_model : Option String) :
    ChatPayload :=
  { message := prompt
    mode := mode
    model :=
      if pyTruthy model then model
      else if mode == "chat" && pyTruthy chat_model then chat_model
      else if mode == "agent" && pyTruthy agent_model then agent_model
      else none }

/-- `query_anythingllm` (api.py lines 37-90) as a function of the transport
outcome.  Every failure is surfaced as an `Except.error`, modelling the
bare `raise` of each handler at lines 82-90. -/
def query_anythingllm (_prompt mode : String) (model : Option String)
    (workspace_config : Option WorkspaceConfig) (_chat_model _agent_model : Option String)
    (backend : BackendResult) : Except QueryError (String × String) :=
  match backend with
  | .transportError => .error .httpError
  | .parseError => .error .jsonDecodeError
  | .parsed d =>
    if pyTruthy d.error then .error (.apiError (d.error.getD ""))
    else
      match d.textResponse with
      | none => .error .noValidResponse
      | some text => .ok (text, resolve_model_used mode model workspace_config d)

/-- Modelled from the spec's words (section 4.2): the claimed strict
precedence for `model_used` — response metrics, then the body's
`chatModel`, then `workspace_config`'s mode-appropriate default, then the
requested model, then the sentinel.  Used to compare against
`resolve_model_used`. -/
def spec_model_attribution (mode : String) (explicit_model : Option String)
    (wc : Option WorkspaceConfig) (d : ResponseData) : String :=
  if pyTruthy d.metricsModel then d.metricsModel.getD ""
  else if pyTruthy d.chatModel then d.chatModel.getD ""
  else
    let wcDefault :=
      match wc with
      | some w => if mode == "agent" then w.agent_model else w.chat_model
      | none => none
    if pyTruthy wcDefault then wcDefault.getD ""
    else if pyTruthy explicit_model then explicit_model.getD ""
    else "unknown"

/-- Modelled from the spec's words (section 4.2, claim C8): the claimed
precedence for the *outgoing* request's model field, which reads
`workspace_config`. -/
def spec_outgoing_model (mode : String) (explicit_model : Option String)
    (wc : Option WorkspaceConfig) : Option String :=
  if pyTruthy explicit_model then explicit_model
  else
    let wcChat := match wc with | some w => w.chat_model | none => none
    let wcAgent := match wc with | some w => w.agent_model | none => none
    if mode == "chat" && pyTruthy wcChat then wcChat
    else if mode == "agent" && pyTruthy wcAgent then wcAgent
    else none

/-! ## Dataset fetcher (dataset.py lines 7-23) -/

/-- Outcome of one `urllib.request.urlretrieve` attempt.  `httpError` is
`urllib.error.HTTPError` (the retried class); `otherError` is any other
exception — timeouts included, since a timed-out retrieve raises
`socket.timeout`/`URLError`, not `HTTPError` — and hits the bare
`except Exception` branch that abandons the current URL. -/
inductive DlOutcome where
  | success (content : String)
  | httpError
  | otherError
deriving DecidableEq

/-- Observable side effects of `download_dataset`, in order. -/
inductive DlEvent where
  | download (url : String)
  | sleep (seconds : Nat)
deriving DecidableEq

/-- The inner `for attempt in range(retries)` loop, with
`fuel = retries - attempt` for structural recursion.  Returns the retrieved
content (if any) and the emitted event trace. -/
def try_url_go (b : String → Nat → DlOutcome) (url : String) (retries delay : Nat) :
    Nat → Nat → Option String × List DlEvent
  | 0, _ => (none, [])
  | fuel + 1, attempt =>
    match b url attempt with
    | .success c => (some c, [.download url])
    | .httpError =>
      if attempt < retries - 1 then
        let r := try_url_go b url retries delay fuel (attempt + 1)
        (r.1, .download url :: .sleep delay :: r.2)
      else (none, [.download url])
    | .otherError => (none, [.download url])

/-- All attempts on a single candidate URL. -/
def try_url (b : String → Nat → DlOutcome) (url : String) (retries delay : Nat) :
    Option String × List DlEvent :=
  try_url_go b url retries delay retries 0

/-- `download_dataset` (dataset.py lines 7-23; defaults `retries=3`,
`delay=2`).  `b url n` is the outcome of attempt number `n` (0-based) on
`url`; the result is the returned boolean, the destination file's content
(set by the first successful retrieve), and the event trace. -/
def download_dataset (b : String → Nat → DlOutcome) (dataset_urls : List String)
    (retries delay : Nat) : Bool × Option String × List DlEvent :=
  match dataset_urls with
  | [] => (false, none, [])
  | url :: rest =>
    match try_url b url retries delay with
    | (some c, evs) => (true, some c, evs)
    | (none, evs) =>
      let r := download_dataset b rest retries delay
      (r.1, r.2.1, evs ++ r.2.2)

/-! ## RAM guard (utils.py lines 7-15) -/

/-- `check_ram_usage`: compares `used / 1024^3` against the fixed threshold
of 50 (GB).  The source divides in floating point; the division is exact in
binary floating point for any realistic `used_bytes` (below 2^53), so the
comparison is embedded over ℚ.  `total_bytes` only feeds the log message. -/
def check_ram_usage (used_bytes _total_bytes : Nat) : Bool :=
  let used_ram : ℚ := (used_bytes : ℚ) / (1024 ^ 3 : ℚ)
  let threshold : ℚ := 50
  decide (used_ram < threshold)

/-! ## Claims about the prober, client, fetcher and RAM guard -/

/-- A string whose `isEmpty` test is false is not the empty string. -/
theorem ne_empty_of_isEmpty_false {s : String} (h : s.isEmpty = false) : s ≠ "" := by
  intro h2
  subst h2
  exact absurd h (by decide)

/-- A truthy optional string is `some` of a non-empty string. -/
theorem truthy_shape {o : Option String} (h : pyTruthy o = true) :
    ∃ s, o = some s ∧ s.isEmpty = false := by
  rcases o with _ | s
  · simp [pyTruthy] at h
  · exact ⟨s, rfl, by simpa [pyTruthy] using h⟩

/-- Python `x or d` as a truthiness conditional. -/
theorem pyOr_eq (x : Option String) (d : String) :
    pyOr x d = if pyTruthy x then x.getD "" else d := by
  rcases x with _ | s
  · simp [pyTruthy, pyOr]
  · by_cases hs : s.isEmpty <;> simp [pyTruthy, pyOr, hs]

/-- `model or "unknown"` is never empty. -/
theorem pyOr_unknown_ne_empty (x : Option String) : pyOr x "unknown" ≠ "" := by
  rw [pyOr_eq]
  by_cases h : pyTruthy x
  · obtain ⟨s, rfl, hs⟩ := truthy_shape h
    simpa [h] using ne_empty_of_isEmpty_false hs
  · simp [h]

/-- Truthiness of `none`, for rewriting. -/
theorem pyTruthy_none : pyTruthy none = false := rfl

/-- Truthiness of `some s`, for rewriting. -/
theorem pyTruthy_some (s : String) : pyTruthy (some s) = !s.isEmpty := rfl

/-- The tail of both precedence chains, over an abstract mode default `v`:
the code's falsiness conditional and the spec's truthiness chain agree. -/
theorem chain_tail_eq (v model : Option String) :
    (if pyTruthy v = false then pyOr model "unknown" else v.getD "") =
      (if pyTruthy v = true then v.getD ""
        else if pyTruthy model = true then model.getD "" else "unknown") := by
  rcases hb : pyTruthy v with _ | _ <;> simp [hb, pyOr_eq]

/-- The tail of the spec's precedence chain is never empty. -/
theorem chain_tail_ne (v model : Option String) :
    (if pyTruthy v = true then v.getD ""
      else if pyTruthy model = true then model.getD "" else "unknown") ≠ "" := by
  rcases hb : pyTruthy v with _ | _
  · by_cases h : pyTruthy model = true
    · obtain ⟨s, rfl, hs⟩ := truthy_shape h
      simpa [hb, h] using ne_empty_of_isEmpty_false hs
    · simp [hb, h]
  · obtain ⟨s, hv, hs⟩ := truthy_shape hb
    rw [hv] at hb ⊢
    simpa [hb] using ne_empty_of_isEmpty_false hs

/-- The code's reassignment chain agrees with the spec's precedence chain. -/
theorem resolve_model_used_eq_spec (mode : String) (model : Option String)
    (wc : Option WorkspaceConfig) (d : ResponseData) :
    resolve_model_used mode model wc d = spec_model_attribution mode model wc d := by
  rcases hb1 : pyTruthy d.metricsModel with _ | _
  · rcases hb2 : pyTruthy d.chatModel with _ | _
    · rcases wc with _ | w
      · simp [resolve_model_used, spec_model_attribution, hb1, hb2, pyOr_eq,
          pyTruthy_none]
      · simpa [resolve_model_used, spec_model_attribution, hb1, hb2] using
          chain_tail_eq (if mode == "agent" then w.agent_model else w.chat_model) model
    · obtain ⟨s2, hc, hs2⟩ := truthy_shape hb2
      simp [resolve_model_used, spec_model_attribution, hb1, hc, hs2, pyTruthy_some]
  · obtain ⟨s1, hm, hs1⟩ := truthy_shape hb1
    simp [resolve_model_used, spec_model_attribution, hm, hs1, pyTruthy_some]

/-- The spec's precedence chain never yields an empty string. -/
theorem spec_model_attribution_ne_empty (mode : String) (model : Option String)
    (wc : Option WorkspaceConfig) (d : ResponseData) :
    spec_model_attribution mode model wc d ≠ "" := by
  rcases hb1 : pyTruthy d.metricsModel with _ | _
  · rcases hb2 : pyTruthy d.chatModel with _ | _
    · rcases wc with _ | w
      · simpa [spec_model_attribution, hb1, hb2, pyTruthy_none] using
          chain_tail_ne none model
      · simpa [spec_model_attribution, hb1, hb2] using
          chain_tail_ne (if mode == "agent" then w.agent_model else w.chat_model) model
    · obtain ⟨s2, hc, hs2⟩ := truthy_shape hb2
      simpa [spec_model_attribution, hb1, hc, hs2, pyTruthy_some] using
        ne_empty_of_isEmpty_false hs2
  · obtain ⟨s1, hm, hs1⟩ := truthy_shape hb1
    simpa [spec_model_attribution, hm, hs1, pyTruthy_some] using
      ne_empty_of_isEmpty_false hs1

/-- The resolved `model_used` never comes out empty. -/
theorem resolve_model_used_ne_empty (mode : String) (model : Option String)
    (wc : Option WorkspaceConfig) (d : ResponseData) :
    resolve_model_used mode model wc d ≠ "" := by
  rw [resolve_model_used_eq_spec]
  exact spec_model_attribution_ne_empty mode model wc d

/-- C1: every successful response of `query_anythingllm` carries a
`model_used` resolved by the spec's strict precedence — response metrics,
then the body's `chatModel`, then `workspace_config`'s mode-appropriate
default, then the requested model, then the sentinel "unknown" — and is
therefore never empty. -/
theorem claim_C1 (prompt mode : String) (model : Option String)
    (wc : Option WorkspaceConfig) (cm am : Option String) (d : ResponseData)
    (text mu : String)
    (h : query_anythingllm prompt mode model wc cm am (.parsed d) = .ok (text, mu)) :
    mu = spec_model_attribution mode model wc d ∧ mu ≠ "" := by
  unfold query_anythingllm at h
  by_cases he : pyTruthy d.error
  · simp [he] at h
  · rcases ht : d.textResponse with _ | t
    · simp [he, ht] at h
    · simp only [he, Bool.false_eq_true, if_false, ht] at h
      have : mu = resolve_model_used mode model wc d := by
        cases h; rfl
      subst this
      exact ⟨resolve_model_used_eq_spec mode model wc d,
        resolve_model_used_ne_empty mode model wc d⟩

/-- C1 witness: a concrete response with `metrics.model = "A"` and a
workspace default "B" is attributed to "A". -/
theorem claim_C1_witness :
    query_anythingllm "p" "chat" none (some ⟨some "B", none, none⟩) none none
        (.parsed ⟨none, some "hello", some "A", none⟩) = .ok ("hello", "A") ∧
    ("A" : String) = spec_model_attribution "chat" none (some ⟨some "B", none, none⟩)
        ⟨none, some "hello", some "A", none⟩ ∧ ("A" : String) ≠ "" := by
  refine ⟨rfl, ?_⟩
  have h := claim_C1 "p" "chat" none (some ⟨some "B", none, none⟩) none none
    ⟨none, some "hello", some "A", none⟩ "hello" "A" rfl
  exact ⟨h.1, h.2⟩

/-- C2: the generation client fails exactly on a non-2xx transport status,
an unparseable body, a truthy embedded `error` field, or a missing/null
`textResponse`; in every other case it succeeds, returning the body's
`textResponse` and the resolved model.  Failures are raised (modelled as
`Except.error`), never swallowed. -/
theorem claim_C2 (prompt mode : String) (model : Option String)
    (wc : Option WorkspaceConfig) (cm am : Option String) (backend : BackendResult) :
    ((∃ e, query_anythingllm prompt mode model wc cm am backend = .error e) ↔
      backend = .transportError ∨ backend = .parseError ∨
        ∃ d, backend = .parsed d ∧ (pyTruthy d.error = true ∨ d.textResponse = none)) ∧
    (∀ d text, backend = .parsed d → pyTruthy d.error = false →
      d.textResponse = some text →
      query_anythingllm prompt mode model wc cm am backend =
        .ok (text, resolve_model_used mode model wc d)) := by
  cases backend with
  | transportError =>
    refine ⟨⟨fun _ => Or.inl rfl, fun _ => ⟨.httpError, rfl⟩⟩, ?_⟩
    intro d text hd
    exact absurd hd (by simp)
  | parseError =>
    refine ⟨⟨fun _ => Or.inr (Or.inl rfl), fun _ => ⟨.jsonDecodeError, rfl⟩⟩, ?_⟩
    intro d text hd
    exact absurd hd (by simp)
  | parsed d =>
    constructor
    · constructor
      · rintro ⟨e, he⟩
        refine Or.inr (Or.inr ⟨d, rfl, ?_⟩)
        by_cases h1 : pyTruthy d.error
        · exact Or.inl h1
        · rcases ht : d.textResponse with _ | t
          · exact Or.inr rfl
          · simp [query_anythingllm, h1, ht] at he
      · rintro (h | h | ⟨d2, hd2, h⟩)
        · cases h
        · cases h
        · cases hd2
          rcases h with h | h
          · exact ⟨.apiError (d.error.getD ""), by simp [query_anythingllm, h]⟩
          · by_cases h1 : pyTruthy d.error
            · exact ⟨.apiError (d.error.getD ""), by simp [query_anythingllm, h1]⟩
            · exact ⟨.noValidResponse, by simp [query_anythingllm, h1, h]⟩
    · intro d2 text hd2 he ht
      cases hd2
      simp [query_anythingllm, he, ht]

/-- C2 witness: a concrete well-formed response succeeds with its
`textResponse`, and a concrete transport failure is raised as an error. -/
theorem claim_C2_witness :
    query_anythingllm "p" "chat" none none none none
        (.parsed ⟨none, some "hello", some "A", none⟩) =
      .ok ("hello", resolve_model_used "chat" none none ⟨none, some "hello", some "A", none⟩) ∧
    (∃ e, query_anythingllm "p" "chat" none none none none .transportError = .error e) := by
  constructor
  · exact (claim_C2 "p" "chat" none none none none
      (.parsed ⟨none, some "hello", some "A", none⟩)).2
      ⟨none, some "hello", some "A", none⟩ "hello" rfl (by decide) rfl
  · exact (claim_C2 "p" "chat" none none none none .transportError).1.mpr (Or.inl rfl)

/-- C3: on any of the enumerated failure modes — failed or non-2xx liveness
check, failed workspace enumeration, or a workspace slug missing from the
enumeration — the prober returns `(false, none)`.  The embedding is a total
function, modelling that it never raises. -/
theorem claim_C3 (workspace : String) (b : ProbeBehavior)
    (h : b.docsOk = false ∨ b.workspacesResult = none ∨
      ∃ wss, b.workspacesResult = some wss ∧ workspace ∉ wss.map (·.slug)) :
    check_api_availability workspace b = (false, none) := by
  by_cases hd : b.docsOk = false
  · simp [check_api_availability, hd]
  · rcases h with h | h | ⟨wss, h1, h2⟩
    · exact absurd h hd
    · simp [check_api_availability, hd, h]
    · simp [check_api_availability, hd, h1, h2]

/-- C3 witness: an unreachable backend yields `(false, none)`. -/
theorem claim_C3_witness :
    check_api_availability "development" ⟨false, none⟩ = (false, none) :=
  claim_C3 "development" ⟨false, none⟩ (Or.inl rfl)

/-- C4 counterexample: with `retries = 3`, a first URL that always fails
with an HTTP-class (404) error receives exactly 3 download attempts with
sleeps in between — not 1 as claimed — before the fetcher falls through to
the second URL. -/
theorem claim_C4_counterexample :
    download_dataset (fun url _ => if url == "u1" then .httpError else .success "second")
        ["u1", "u2"] 3 2 =
      (true, some "second",
        [.download "u1", .sleep 2, .download "u1", .sleep 2, .download "u1",
          .download "u2"]) ∧
    ([DlEvent.download "u1", .sleep 2, .download "u1", .sleep 2, .download "u1",
        .download "u2"].count (DlEvent.download "u1") = 3 ∧ (3 : Nat) ≠ 1) := by
  decide

/-- C4 amended: HTTP-error-class failures are the retried (transient) class
in this code, so the first URL receives exactly `max_attempts_per_url = 3`
attempts with `retry_delay` sleeps between consecutive attempts; the fetch
then advances to the second URL, succeeds on its first attempt, and returns
true with the second source's content at the destination. -/
theorem claim_C4_amended (u1 u2 : String) (delay : Nat) (b : String → Nat → DlOutcome)
    (c : String) (h1 : ∀ n, b u1 n = .httpError) (h2 : b u2 0 = .success c) :
    download_dataset b [u1, u2] 3 delay =
      (true, some c,
        [.download u1, .sleep delay, .download u1, .sleep delay, .download u1,
          .download u2]) := by
  simp [download_dataset, try_url, try_url_go, h1, h2]

/-- C4 amended witness. -/
theorem claim_C4_amended_witness :
    download_dataset (fun url _ => if url == "a" then .httpError else .success "c2")
        ["a", "b"] 3 7 =
      (true, some "c2",
        [.download "a", .sleep 7, .download "a", .sleep 7, .download "a",
          .download "b"]) :=
  claim_C4_amended "a" "b" 7 _ "c2" (fun _ => by decide) (by decide)

/-- C5 counterexample: a URL that always times out is abandoned after a
single attempt with no sleep — not retried 3 times as claimed — because a
timeout raises outside the `HTTPError` class and hits the bare
`except Exception` branch. -/
theorem claim_C5_counterexample :
    download_dataset (fun _ _ => .otherError) ["u"] 3 2 = (false, none, [.download "u"]) ∧
    ([DlEvent.download "u"].count (DlEvent.download "u") = 1 ∧ (1 : Nat) ≠ 3) := by
  decide

/-- C5 amended: timeouts are non-transient in this code's classification
(only `urllib.error.HTTPError` is retried), so a single candidate URL whose
first attempt times out is abandoned after exactly 1 attempt, with no sleep,
and the fetch returns false. -/
theorem claim_C5_amended (u : String) (delay retries : Nat) (b : String → Nat → DlOutcome)
    (hr : 1 ≤ retries) (h : b u 0 = .otherError) :
    download_dataset b [u] retries delay = (false, none, [.download u]) := by
  obtain ⟨r, rfl⟩ : ∃ r, retries = r + 1 := ⟨retries - 1, by omega⟩
  simp [download_dataset, try_url, try_url_go, h]

/-- C5 amended witness. -/
theorem claim_C5_amended_witness :
    download_dataset (fun _ _ => .otherError) ["u"] 3 5 = (false, none, [.download "u"]) :=
  claim_C5_amended "u" 5 3 _ (by decide) (by decide)

/-- C8 counterexample: with no explicit model, mode "chat", and a workspace
configuration carrying `chat_model = "B"`, the code omits the payload's
model field (it reads the standalone `chat_model` argument, which the
repository's call sites leave unset), while the claimed precedence would
name "B". -/
theorem claim_C8_counterexample :
    (build_payload "p" "chat" none none none).model = none ∧
    spec_outgoing_model "chat" none (some ⟨some "B", none, none⟩) = some "B" ∧
    (build_payload "p" "chat" none none none).model ≠
      spec_outgoing_model "chat" none (some ⟨some "B", none, none⟩) := by
  decide

/-- C8 amended: the outgoing payload's model is the explicit model when
provided; else, in mode "chat", the standalone `chat_model` argument when
provided; else, in mode "agent", the standalone `agent_model` argument when
provided; else the field is omitted.  `workspace_config` is not consulted
(the constructor does not take it), and when the two standalone arguments
are unset — as at this repository's call sites — the payload names the
explicit model or omits the field. -/
theorem claim_C8_amended (prompt mode : String) (model chat_model agent_model : Option String) :
    (build_payload prompt mode model chat_model agent_model).message = prompt ∧
    (build_payload prompt mode model chat_model agent_model).mode = mode ∧
    (pyTruthy model = true →
      (build_payload prompt mode model chat_model agent_model).model = model) ∧
    (pyTruthy model = false → mode = "chat" → pyTruthy chat_model = true →
      (build_payload prompt mode model chat_model agent_model).model = chat_model) ∧
    (pyTruthy model = false → mode = "agent" → pyTruthy agent_model = true →
      (build_payload prompt mode model chat_model agent_model).model = agent_model) ∧
    (pyTruthy model = false → (mode = "chat" → pyTruthy chat_model = false) →
      (mode = "agent" → pyTruthy agent_model = false) →
      (build_payload prompt mode model chat_model agent_model).model = none) ∧
    (chat_model = none → agent_model = none →
      (build_payload prompt mode model chat_model agent_model).model =
        if pyTruthy model then model else none) := by
  refine ⟨rfl, rfl, ?_, ?_, ?_, ?_, ?_⟩
  · intro h; simp [build_payload, h]
  · intro h hm hc; simp [build_payload, h, hm, hc]
  · intro h hm hc; simp [build_payload, h, hm, hc]
  · intro h h1 h2
    simp only [build_payload, h, Bool.false_eq_true, if_false]
    by_cases hm : mode = "chat"
    · simp [hm, h1 hm]
    · by_cases hm2 : mode = "agent"
      · have hx : (mode == "chat") = false := by simp [hm]
        simp [hm2, h2 hm2, hx]
      · have hx : (mode == "chat") = false := by simp [hm]
        have hy : (mode == "agent") = false := by simp [hm2]
        simp [hx, hy]
  · intro h1 h2
    subst h1; subst h2
    by_cases h : pyTruthy model
    · simp [build_payload, h]
    · simp [build_payload, h, pyTruthy]

/-- C8 amended witness. -/
theorem claim_C8_amended_witness :
    (build_payload "p" "chat" (some "m") none none).model = some "m" :=
  (claim_C8_amended "p" "chat" (some "m") none none).2.2.1 (by decide)

/-- C9: the RAM guard returns true exactly when used memory is strictly
under the fixed absolute threshold of 50 GB; at exactly the threshold it
returns false, one byte under it returns true. -/
theorem claim_C9 :
    (∀ total, check_ram_usage (50 * 1024 ^ 3) total = false) ∧
    (∀ total, check_ram_usage (50 * 1024 ^ 3 - 1) total = true) ∧
    (∀ used total, check_ram_usage used total = true ↔ used < 50 * 1024 ^ 3) := by
  have key : ∀ used total, check_ram_usage used total = true ↔ used < 50 * 1024 ^ 3 := by
    intro used total
    unfold check_ram_usage
    simp only [decide_eq_true_eq]
    rw [div_lt_iff₀ (by norm_num : (0 : ℚ) < 1024 ^ 3)]
    constructor
    · intro h; exact_mod_cast h
    · intro h; exact_mod_cast h
  refine ⟨?_, ?_, key⟩
  · intro total
    have h := key (50 * 1024 ^ 3) total
    rcases hb : check_ram_usage (50 * 1024 ^ 3) total with _ | _
    · rfl
    · rw [hb] at h
      exact absurd (h.mp rfl) (by omega)
  · intro total
    rw [key]
    omega

/-- C9 witness: the boundary values, evaluated. -/
theorem claim_C9_witness :
    check_ram_usage (50 * 1024 ^ 3) 0 = false ∧
    check_ram_usage (50 * 1024 ^ 3 - 1) 0 = true :=
  ⟨claim_C9.1 0, claim_C9.2.1 0⟩

/-! ## Structural lemmas about the sanitizer -/

/-- Every splitlines boundary character is Python whitespace. -/
theorem isLineBreak_space {c : Char} (h : isLineBreak c = true) : pyIsSpace c = true := by
  have hmem : c.toNat ∈ lineBreakCodes := by
    simpa [isLineBreak] using h
  simp only [lineBreakCodes, List.mem_cons, List.not_mem_nil, or_false] at hmem
  unfold pyIsSpace pySpaceCodes
  rcases hmem with h1 | h1 | h1 | h1 | h1 | h1 | h1 | h1 | h1 | h1 <;> rw [h1] <;> decide

/-- Prefixes extend along appends. -/
theorem isPrefixOf_extend {l a : List Char} (t : List Char) (h : l.isPrefixOf a = true) :
    l.isPrefixOf (a ++ t) = true := by
  induction l generalizing a with
  | nil => simp [List.isPrefixOf]
  | cons x l ih =>
    cases a with
    | nil => simp [List.isPrefixOf] at h
    | cons y a =>
      simp only [List.isPrefixOf, Bool.and_eq_true] at h
      simp only [List.cons_append, List.isPrefixOf, Bool.and_eq_true]
      exact ⟨h.1, ih h.2⟩

/-- Transitivity of the boolean prefix test. -/
theorem isPrefixOf_trans {p q r : List Char} (h1 : p.isPrefixOf q = true)
    (h2 : q.isPrefixOf r = true) : p.isPrefixOf r = true := by
  induction p generalizing q r with
  | nil => simp [List.isPrefixOf]
  | cons x p ih =>
    cases q with
    | nil => simp [List.isPrefixOf] at h1
    | cons y q =>
      cases r with
      | nil => simp [List.isPrefixOf] at h2
      | cons z r =>
        simp only [List.isPrefixOf, Bool.and_eq_true, beq_iff_eq] at h1 h2 ⊢
        exact ⟨h1.1.trans h2.1, ih h1.2 h2.2⟩

/-- A list is a prefix of itself extended. -/
theorem isPrefixOf_self_append (l t : List Char) : l.isPrefixOf (l ++ t) = true := by
  induction l with
  | nil => simp [List.isPrefixOf]
  | cons x l ih => simp [List.isPrefixOf, ih]

/-- The left part of an appended pattern is itself a matching prefix. -/
theorem isPrefixOf_of_append {a b cs : List Char} (h : (a ++ b).isPrefixOf cs = true) :
    a.isPrefixOf cs = true :=
  isPrefixOf_trans (isPrefixOf_self_append a b) h

/-- Shape of a string beginning with the fence delimiter. -/
theorem triple_isPrefixOf_iff {xs : List Char} :
    triple.isPrefixOf xs = true ↔ ∃ ys, xs = bt :: bt :: bt :: ys := by
  cases xs with
  | nil => simp [triple, List.isPrefixOf]
  | cons A xs =>
    cases xs with
    | nil => simp [triple, List.isPrefixOf]
    | cons B xs =>
      cases xs with
      | nil => simp [triple, List.isPrefixOf]
      | cons C ys =>
        simp only [triple, List.isPrefixOf, Bool.and_eq_true, beq_iff_eq]
        constructor
        · rintro ⟨h1, h2, h3, -⟩
          exact ⟨ys, by rw [← h1, ← h2, ← h3]⟩
        · rintro ⟨ys2, h⟩
          injection h with h1 h
          injection h with h2 h
          injection h with h3 h
          subst h1
          subst h2
          subst h3
          simp [List.isPrefixOf]

/-- A triple in the left part of an append is a triple of the whole. -/
theorem hasTriple_append_of_left {a : List Char} (b : List Char)
    (h : hasTriple a = true) : hasTriple (a ++ b) = true := by
  induction a with
  | nil => simp [hasTriple] at h
  | cons c a ih =>
    simp only [hasTriple, Bool.or_eq_true] at h
    rcases h with h | h
    · simp only [List.cons_append, hasTriple, Bool.or_eq_true]
      exact Or.inl (by simpa using isPrefixOf_extend b h)
    · simp only [List.cons_append, hasTriple, Bool.or_eq_true]
      exact Or.inr (ih h)

/-- No triple in an append means no triple in the right part. -/
theorem hasTriple_false_right {a b : List Char} (h : hasTriple (a ++ b) = false) :
    hasTriple b = false := by
  induction a with
  | nil => exact h
  | cons c a ih =>
    simp only [List.cons_append, hasTriple, Bool.or_eq_false_iff] at h
    exact ih h.2

/-- No triple in an append means no triple in the left part. -/
theorem hasTriple_false_left {a b : List Char} (h : hasTriple (a ++ b) = false) :
    hasTriple a = false := by
  rcases ht : hasTriple a with _ | _
  · rfl
  · rw [hasTriple_append_of_left b ht] at h
    cases h

/-- The truncating substitution is a prefix of its input. -/
theorem sub2_isPrefixOf (cs : List Char) : (sub2 cs).isPrefixOf cs = true := by
  induction cs with
  | nil => simp [sub2, List.isPrefixOf]
  | cons c cs ih =>
    unfold sub2
    by_cases h : triple.isPrefixOf (c :: cs) = true
    · rw [if_pos h]
      simp [List.isPrefixOf]
    · rw [if_neg h]
      simp only [List.isPrefixOf, beq_self_eq_true, Bool.true_and]
      exact ih

/-- The truncating substitution leaves no fence delimiter behind. -/
theorem sub2_no_triple (cs : List Char) : hasTriple (sub2 cs) = false := by
  induction cs with
  | nil => rfl
  | cons c cs ih =>
    simp only [sub2]
    by_cases h : triple.isPrefixOf (c :: cs) = true
    · simp [h, hasTriple]
    · simp only [h, Bool.false_eq_true, if_false, hasTriple, Bool.or_eq_false_iff]
      refine ⟨?_, ih⟩
      rcases hp : triple.isPrefixOf (c :: sub2 cs) with _ | _
      · rfl
      · exfalso
        have hext : (c :: sub2 cs).isPrefixOf (c :: cs) = true := by
          simp only [List.isPrefixOf, beq_self_eq_true, Bool.true_and]
          exact sub2_isPrefixOf cs
        exact h (isPrefixOf_trans hp hext)

/-- A no-triple text is untouched by the truncating substitution. -/
theorem sub2_eq_self {cs : List Char} (h : hasTriple cs = false) : sub2 cs = cs := by
  induction cs with
  | nil => rfl
  | cons c cs ih =>
    simp only [hasTriple, Bool.or_eq_false_iff] at h
    simp only [sub2, h.1, Bool.false_eq_true, if_false]
    rw [ih h.2]

/-- Every recognized opening delimiter starts with the fence delimiter. -/
theorem openLen_triple {cs : List Char} {l : Nat} (h : openLen cs = some l) :
    triple.isPrefixOf cs = true := by
  unfold openLen at h
  by_cases h1 : (fenceOpen tagPython).isPrefixOf cs = true
  · exact isPrefixOf_of_append (by simpa [fenceOpen, List.append_assoc] using h1)
  · rw [if_neg h1] at h
    by_cases h2 : (fenceOpen tagJulia).isPrefixOf cs = true
    · exact isPrefixOf_of_append (by simpa [fenceOpen, List.append_assoc] using h2)
    · rw [if_neg h2] at h
      by_cases h3 : (fenceOpen tagHtml).isPrefixOf cs = true
      · exact isPrefixOf_of_append (by simpa [fenceOpen, List.append_assoc] using h3)
      · rw [if_neg h3] at h
        by_cases h4 : (fenceOpen tagJavascript).isPrefixOf cs = true
        · exact isPrefixOf_of_append (by simpa [fenceOpen, List.append_assoc] using h4)
        · rw [if_neg h4] at h
          by_cases h5 : (fenceOpen []).isPrefixOf cs = true
          · exact isPrefixOf_of_append (by simpa [fenceOpen, List.append_assoc] using h5)
          · rw [if_neg h5] at h
            cases h

/-- On a no-triple text no opening delimiter matches. -/
theorem openLen_eq_none {cs : List Char} (h : hasTriple cs = false) : openLen cs = none := by
  cases cs with
  | nil => rfl
  | cons c cs =>
    simp only [hasTriple, Bool.or_eq_false_iff] at h
    rcases ho : openLen (c :: cs) with _ | l
    · rfl
    · rw [openLen_triple ho] at h
      cases h.1

/-- The remainder returned by the closing-delimiter search is shorter. -/
theorem splitAtClose_length {cs i r : List Char}
    (h : splitAtClose cs = some (i, r)) : r.length < cs.length := by
  induction cs generalizing i r with
  | nil => cases h
  | cons c cs ih =>
    simp only [splitAtClose] at h
    by_cases hp : closePat.isPrefixOf (c :: cs) = true
    · rw [if_pos hp] at h
      injection h with h
      injection h with h1 h2
      subst h2
      have : (cs.drop 3).length ≤ cs.length := by
        simpa using List.length_drop_le 3 cs
      simp only [List.length_cons]
      omega
    · rw [if_neg hp] at h
      rcases hs : splitAtClose cs with _ | p
      · rw [hs] at h; cases h
      · rcases p with ⟨i2, r2⟩
        rw [hs] at h
        injection h with h
        injection h with h1 h2
        subst h2
        have := ih hs
        simp only [List.length_cons]
        omega

/-- The empty text is a fixed point of the fuelled scan at any fuel. -/
theorem sub1Fuel_nil (n : Nat) : sub1Fuel n [] = [] := by
  cases n with
  | zero => rfl
  | succ n => rfl

/-- The fuelled scan does not depend on the fuel once it covers the input
length. -/
theorem sub1Fuel_adequate : ∀ n m (cs : List Char), cs.length ≤ n → cs.length ≤ m →
    sub1Fuel n cs = sub1Fuel m cs := by
  intro n
  induction n with
  | zero =>
    intro m cs hn _
    have : cs = [] := List.length_eq_zero.mp (Nat.le_zero.mp hn)
    subst this
    rw [sub1Fuel_nil, sub1Fuel_nil]
  | succ n ih =>
    intro m cs hn hm
    cases cs with
    | nil => rw [sub1Fuel_nil, sub1Fuel_nil]
    | cons c t =>
      have hm1 : 1 ≤ m := le_trans (by simp) hm
      obtain ⟨m2, rfl⟩ : ∃ m2, m = m2 + 1 := ⟨m - 1, by omega⟩
      simp only [List.length_cons] at hn hm
      rcases ho : openLen (c :: t) with _ | l
      · simp only [sub1Fuel, ho]
        congr 1
        exact ih m2 t (by omega) (by omega)
      · rcases hs : splitAtClose ((c :: t).drop l) with _ | ⟨i, r⟩
        · simp only [sub1Fuel, ho, hs]
          congr 1
          exact ih m2 t (by omega) (by omega)
        · have hr : r.length < t.length + 1 := by
            have h1 := splitAtClose_length hs
            have h2 : ((c :: t).drop l).length ≤ (c :: t).length := by
              simpa using List.length_drop_le l (c :: t)
            simp only [List.length_cons] at h1 h2 ⊢
            omega
          simp only [sub1Fuel, ho, hs]
          congr 1
          exact ih m2 r (by omega) (by omega)

/-- A no-triple text is untouched by the first substitution. -/
theorem sub1_eq_self {cs : List Char} (h : hasTriple cs = false) : sub1 cs = cs := by
  suffices key : ∀ n (cs : List Char), cs.length ≤ n → hasTriple cs = false →
      sub1Fuel n cs = cs by
    exact key cs.length cs le_rfl h
  intro n
  induction n with
  | zero =>
    intro cs hn _
    have : cs = [] := List.length_eq_zero.mp (Nat.le_zero.mp hn)
    subst this
    rfl
  | succ n ih =>
    intro cs hn hcs
    cases cs with
    | nil => rfl
    | cons c t =>
      simp only [sub1Fuel, openLen_eq_none hcs]
      simp only [hasTriple, Bool.or_eq_false_iff] at hcs
      rw [ih t (by simp at hn; omega) hcs.2]

/-- One successful match step of the first substitution. -/
theorem sub1_step {cs : List Char} {l : Nat} {i r : List Char}
    (ho : openLen cs = some l) (hs : splitAtClose (cs.drop l) = some (i, r)) :
    sub1 cs = i ++ sub1 r := by
  have hne : cs ≠ [] := by
    intro h
    subst h
    cases ho
  obtain ⟨c, t, rfl⟩ : ∃ c t, cs = c :: t := by
    cases cs with
    | nil => exact absurd rfl hne
    | cons c t => exact ⟨c, t, rfl⟩
  have hr : r.length < (c :: t).length := by
    have h1 := splitAtClose_length hs
    have h2 : ((c :: t).drop l).length ≤ (c :: t).length := by
      simpa using List.length_drop_le l (c :: t)
    omega
  show sub1Fuel (c :: t).length (c :: t) = i ++ sub1Fuel r.length r
  obtain ⟨k, hk⟩ : ∃ k, (c :: t).length = k + 1 := ⟨t.length, by simp⟩
  rw [hk]
  simp only [sub1Fuel, ho, hs]
  congr 1
  exact sub1Fuel_adequate k r.length r (by simp only [List.length_cons] at hk hr; omega) le_rfl

/-! ## Unfolding steps for `splitlinesAux` -/

/-- End of input: emit the pending line unless it is empty. -/
theorem splitlinesAux_nil (acc : List Char) :
    splitlinesAux acc [] = if acc.isEmpty then [] else [acc.reverse] := rfl

/-- A non-boundary character is accumulated. -/
theorem splitlinesAux_cons_nobreak {acc : List Char} {c : Char} {cs : List Char}
    (h : isLineBreak c = false) :
    splitlinesAux acc (c :: cs) = splitlinesAux (c :: acc) cs := by
  have hc : c ≠ '\r' := by
    intro e
    subst e
    exact absurd h (by decide)
  cases cs with
  | nil => simp [splitlinesAux, h, hc]
  | cons c2 cs2 => simp [splitlinesAux, h, hc]

/-- A boundary character other than CR emits the pending line. -/
theorem splitlinesAux_cons_break {acc : List Char} {c : Char} {cs : List Char}
    (h : isLineBreak c = true) (hc : c ≠ '\r') :
    splitlinesAux acc (c :: cs) = acc.reverse :: splitlinesAux [] cs := by
  cases cs with
  | nil => simp [splitlinesAux, h, hc]
  | cons c2 cs2 => simp [splitlinesAux, h, hc]

/-- A newline emits the pending line. -/
theorem splitlinesAux_newline (acc rest : List Char) :
    splitlinesAux acc ('\n' :: rest) = acc.reverse :: splitlinesAux [] rest :=
  splitlinesAux_cons_break (by decide) (by decide)

/-- CRLF is one boundary. -/
theorem splitlinesAux_crlf (acc rest : List Char) :
    splitlinesAux acc ('\r' :: '\n' :: rest) = acc.reverse :: splitlinesAux [] rest := by
  simp [splitlinesAux]

/-- A lone CR emits the pending line. -/
theorem splitlinesAux_cr {acc : List Char} {c2 : Char} {cs2 : List Char} (h2 : c2 ≠ '\n') :
    splitlinesAux acc ('\r' :: c2 :: cs2) = acc.reverse :: splitlinesAux [] (c2 :: cs2) := by
  have hb : isLineBreak '\r' = true := by decide
  simp [splitlinesAux, h2, hb]

/-- A trailing CR emits the pending line. -/
theorem splitlinesAux_cr_nil (acc : List Char) :
    splitlinesAux acc ['\r'] = acc.reverse :: splitlinesAux [] [] := by
  have hb : isLineBreak '\r' = true := by decide
  simp [splitlinesAux, hb]

/-! ## `splitlines` against `joinLines` -/

/-- Consuming one boundary-free line followed by a newline. -/
theorem splitlinesAux_line {l : List Char} (hl : ∀ c ∈ l, isLineBreak c = false)
    (acc rest : List Char) :
    splitlinesAux acc (l ++ '\n' :: rest) = (acc.reverse ++ l) :: splitlinesAux [] rest := by
  induction l generalizing acc with
  | nil => simpa using splitlinesAux_newline acc rest
  | cons x l ih =>
    have hx : isLineBreak x = false := hl x (by simp)
    rw [List.cons_append, splitlinesAux_cons_nobreak hx,
      ih (fun c hc => hl c (by simp [hc]))]
    simp

/-- Consuming a final boundary-free line. -/
theorem splitlinesAux_final {l : List Char} (hl : ∀ c ∈ l, isLineBreak c = false)
    (acc : List Char) :
    splitlinesAux acc l =
      if (acc.reverse ++ l).isEmpty then [] else [acc.reverse ++ l] := by
  induction l generalizing acc with
  | nil => simp [splitlinesAux_nil, List.isEmpty_iff]
  | cons x l ih =>
    have hx : isLineBreak x = false := hl x (by simp)
    rw [splitlinesAux_cons_nobreak hx, ih (fun c hc => hl c (by simp [hc]))]
    simp [List.isEmpty_iff]

/-- `splitlines` recovers the lines that `joinLines` assembled, provided the
lines are non-empty and free of boundary characters. -/
theorem splitlines_joinLines {ks : List (List Char)} (h1 : ks ≠ [])
    (h2 : ∀ l ∈ ks, l ≠ [] ∧ ∀ c ∈ l, isLineBreak c = false) :
    splitlines (joinLines ks) = ks := by
  induction ks with
  | nil => exact absurd rfl h1
  | cons k ks ih =>
    obtain ⟨hk1, hk2⟩ := h2 k (by simp)
    cases ks with
    | nil =>
      show splitlinesAux [] (joinLines [k]) = [k]
      simp only [joinLines]
      rw [splitlinesAux_final hk2]
      simp [List.isEmpty_iff, hk1]
    | cons k2 ks2 =>
      show splitlinesAux [] (joinLines (k :: k2 :: ks2)) = _
      have hj : joinLines (k :: k2 :: ks2) = k ++ '\n' :: joinLines (k2 :: ks2) := rfl
      rw [hj, splitlinesAux_line hk2]
      simp only [List.reverse_nil, List.nil_append]
      congr 1
      exact ih (by simp) (fun l hl => h2 l (by simp [hl]))

/-- Splitting joined lines followed by a newline and arbitrary text. -/
theorem splitlines_joinLines_append {ks : List (List Char)} (B : List Char) (h1 : ks ≠ [])
    (h2 : ∀ l ∈ ks, l ≠ [] ∧ ∀ c ∈ l, isLineBreak c = false) :
    splitlines (joinLines ks ++ '\n' :: B) = ks ++ splitlines B := by
  induction ks with
  | nil => exact absurd rfl h1
  | cons k ks ih =>
    obtain ⟨hk1, hk2⟩ := h2 k (by simp)
    cases ks with
    | nil =>
      show splitlinesAux [] (joinLines [k] ++ '\n' :: B) = _
      simp only [joinLines]
      rw [splitlinesAux_line hk2]
      simp [splitlines]
    | cons k2 ks2 =>
      show splitlinesAux [] (joinLines (k :: k2 :: ks2) ++ '\n' :: B) = _
      have hj : joinLines (k :: k2 :: ks2) = k ++ '\n' :: joinLines (k2 :: ks2) := rfl
      rw [hj, List.append_assoc, List.cons_append, splitlinesAux_line hk2]
      simp only [List.reverse_nil, List.nil_append, List.cons_append]
      congr 1
      exact ih (by simp) (fun l hl => h2 l (by simp [hl]))

/-- Lines produced by `splitlinesAux` contain no boundary characters. -/
theorem splitlinesAux_no_break (acc cs : List Char)
    (hacc : ∀ c ∈ acc, isLineBreak c = false) :
    ∀ l ∈ splitlinesAux acc cs, ∀ c ∈ l, isLineBreak c = false := by
  induction acc, cs using splitlinesAux.induct with
  | case1 acc ha =>
    rw [splitlinesAux_nil, if_pos ha]
    simp
  | case2 acc ha =>
    rw [splitlinesAux_nil, if_neg ha]
    intro l hl
    simp only [List.mem_singleton] at hl
    subst hl
    intro c hc
    exact hacc c (by simpa using hc)
  | case3 acc rest ih =>
    rw [splitlinesAux_crlf]
    intro l hl
    rcases List.mem_cons.mp hl with rfl | hl2
    · intro c hc
      exact hacc c (by simpa using hc)
    · exact ih (by simp) l hl2
  | case4 acc c cs hpat hbr ih =>
    have hselfstep : ∀ l ∈ acc.reverse :: splitlinesAux [] cs, ∀ ch ∈ l,
        isLineBreak ch = false := by
      intro l hl
      rcases List.mem_cons.mp hl with rfl | hl2
      · intro ch hch
        exact hacc ch (by simpa using hch)
      · exact ih (by simp) l hl2
    by_cases hc : c = '\r'
    · subst hc
      cases cs with
      | nil =>
        rw [splitlinesAux_cr_nil]
        exact hselfstep
      | cons c2 cs2 =>
        by_cases h2 : c2 = '\n'
        · exact absurd (by rw [h2]) (fun he => hpat cs2 rfl he)
        · rw [splitlinesAux_cr h2]
          exact hselfstep
    · rw [splitlinesAux_cons_break hbr hc]
      exact hselfstep
  | case5 acc c cs hpat hbr ih =>
    have hb : isLineBreak c = false := by
      rcases h : isLineBreak c with _ | _
      · rfl
      · exact absurd h hbr
    rw [splitlinesAux_cons_nobreak hb]
    refine ih ?_
    intro ch hch
    rcases List.mem_cons.mp hch with rfl | hch2
    · exact hb
    · exact hacc ch hch2

/-- Lines produced by `splitlinesAux` contain no fence delimiter when the
overall text contains none. -/
theorem splitlinesAux_no_triple (acc cs : List Char)
    (h : hasTriple (acc.reverse ++ cs) = false) :
    ∀ l ∈ splitlinesAux acc cs, hasTriple l = false := by
  induction acc, cs using splitlinesAux.induct with
  | case1 acc ha =>
    rw [splitlinesAux_nil, if_pos ha]
    simp
  | case2 acc ha =>
    rw [splitlinesAux_nil, if_neg ha]
    intro l hl
    simp only [List.mem_singleton] at hl
    subst hl
    simpa using h
  | case3 acc rest ih =>
    rw [splitlinesAux_crlf]
    intro l hl
    rcases List.mem_cons.mp hl with rfl | hl2
    · exact hasTriple_false_left h
    · refine ih ?_ l hl2
      have : acc.reverse ++ '\r' :: '\n' :: rest = (acc.reverse ++ ['\r', '\n']) ++ rest := by
        simp
      rw [this] at h
      simpa using hasTriple_false_right h
  | case4 acc c cs hpat hbr ih =>
    have hsplit : acc.reverse ++ c :: cs = (acc.reverse ++ [c]) ++ cs := by simp
    have hrest : hasTriple cs = false := by
      rw [hsplit] at h
      exact hasTriple_false_right h
    have hselfstep : ∀ l ∈ acc.reverse :: splitlinesAux [] cs, hasTriple l = false := by
      intro l hl
      rcases List.mem_cons.mp hl with rfl | hl2
      · exact hasTriple_false_left h
      · exact ih (by simpa using hrest) l hl2
    by_cases hc : c = '\r'
    · subst hc
      cases cs with
      | nil =>
        rw [splitlinesAux_cr_nil]
        exact hselfstep
      | cons c2 cs2 =>
        by_cases h2 : c2 = '\n'
        · exact absurd (by rw [h2]) (fun he => hpat cs2 rfl he)
        · rw [splitlinesAux_cr h2]
          exact hselfstep
    · rw [splitlinesAux_cons_break hbr hc]
      exact hselfstep
  | case5 acc c cs hpat hbr ih =>
    have hb : isLineBreak c = false := by
      rcases hx : isLineBreak c with _ | _
      · rfl
      · exact absurd hx hbr
    rw [splitlinesAux_cons_nobreak hb]
    refine ih ?_
    simpa using h

/-! ## Facts about `lstrip`, `rstrip`, `strip` -/

/-- `dropWhile` is the identity when the head fails the predicate. -/
theorem dropWhile_eq_self_of_head {p : Char → Bool} {x : List Char}
    (h : ∀ c, x.head? = some c → p c = false) : x.dropWhile p = x := by
  cases x with
  | nil => rfl
  | cons c t =>
    have := h c rfl
    simp [List.dropWhile_cons, this]

/-- The last character of a right-stripped string is not whitespace. -/
theorem pyRstrip_getLast {l : List Char} {c : Char} (h : (pyRstrip l).getLast? = some c) :
    pyIsSpace c = false := by
  unfold pyRstrip at h
  rw [List.getLast?_reverse] at h
  have h2 := List.head?_dropWhile_not pyIsSpace l.reverse
  rw [h] at h2
  exact h2

/-- `rstrip` is the identity when the last character is not whitespace. -/
theorem pyRstrip_eq_self {l : List Char}
    (h : ∀ c, l.getLast? = some c → pyIsSpace c = false) : pyRstrip l = l := by
  unfold pyRstrip
  rw [dropWhile_eq_self_of_head, List.reverse_reverse]
  intro c hc
  rw [List.head?_reverse] at hc
  exact h c hc

/-- `rstrip` is idempotent. -/
theorem pyRstrip_idem (l : List Char) : pyRstrip (pyRstrip l) = pyRstrip l :=
  pyRstrip_eq_self (fun _ h => pyRstrip_getLast h)

/-- Any string is its right-strip followed by the stripped whitespace. -/
theorem pyRstrip_decomp (l : List Char) :
    l = pyRstrip l ++ (l.reverse.takeWhile pyIsSpace).reverse := by
  unfold pyRstrip
  conv_lhs => rw [← List.reverse_reverse l,
    ← List.takeWhile_append_dropWhile (p := pyIsSpace) (l := l.reverse)]
  rw [List.reverse_append]

/-- Characters of the right-strip come from the string. -/
theorem mem_pyRstrip {l : List Char} {c : Char} (h : c ∈ pyRstrip l) : c ∈ l := by
  rw [pyRstrip_decomp l]
  exact List.mem_append.mpr (Or.inl h)

/-- Right-stripping preserves the absence of fence delimiters. -/
theorem hasTriple_false_pyRstrip {l : List Char} (h : hasTriple l = false) :
    hasTriple (pyRstrip l) = false := by
  rw [pyRstrip_decomp l] at h
  exact hasTriple_false_left h

/-- Right-stripping an append. -/
theorem pyRstrip_append (a b : List Char) :
    pyRstrip (a ++ b) = if (pyRstrip b).isEmpty then pyRstrip a else a ++ pyRstrip b := by
  have hrev : ∀ x : List Char, x.reverse.isEmpty = x.isEmpty := by
    intro x
    rw [Bool.eq_iff_iff]
    simp [List.isEmpty_iff]
  by_cases h : (pyRstrip b).isEmpty = true
  · rw [if_pos h]
    unfold pyRstrip at h ⊢
    rw [List.reverse_append, List.dropWhile_append, if_pos]
    rwa [hrev] at h
  · rw [if_neg h]
    unfold pyRstrip at h ⊢
    rw [List.reverse_append, List.dropWhile_append, if_neg, List.reverse_append,
      List.reverse_reverse]
    intro hc
    exact h (by rwa [hrev])

/-- The head of a left-stripped string is not whitespace. -/
theorem pyLstrip_head {l : List Char} {c : Char} (h : (pyLstrip l).head? = some c) :
    pyIsSpace c = false := by
  have h2 := List.head?_dropWhile_not pyIsSpace l
  unfold pyLstrip at h
  rw [h] at h2
  exact h2

/-- `lstrip` is the identity when the head is not whitespace. -/
theorem pyLstrip_eq_self {l : List Char}
    (h : ∀ c, l.head? = some c → pyIsSpace c = false) : pyLstrip l = l :=
  dropWhile_eq_self_of_head h

/-- `lstrip` is idempotent. -/
theorem pyLstrip_idem (l : List Char) : pyLstrip (pyLstrip l) = pyLstrip l :=
  pyLstrip_eq_self (fun _ h => pyLstrip_head h)

/-- Any string is its stripped whitespace followed by its left-strip. -/
theorem pyLstrip_decomp (l : List Char) : l = l.takeWhile pyIsSpace ++ pyLstrip l :=
  (List.takeWhile_append_dropWhile pyIsSpace l).symm

/-- Characters of the left-strip come from the string. -/
theorem mem_pyLstrip {l : List Char} {c : Char} (h : c ∈ pyLstrip l) : c ∈ l := by
  rw [pyLstrip_decomp l]
  exact List.mem_append.mpr (Or.inr h)

/-- Left-stripping preserves the absence of fence delimiters. -/
theorem hasTriple_false_pyLstrip {l : List Char} (h : hasTriple l = false) :
    hasTriple (pyLstrip l) = false := by
  rw [pyLstrip_decomp l] at h
  exact hasTriple_false_right h

/-- Stripping preserves the absence of fence delimiters. -/
theorem hasTriple_false_pyStrip {l : List Char} (h : hasTriple l = false) :
    hasTriple (pyStrip l) = false :=
  hasTriple_false_pyRstrip (hasTriple_false_pyLstrip h)

/-- The left-strip keeps the last character. -/
theorem getLast?_pyLstrip {l : List Char} (h : pyLstrip l ≠ []) :
    (pyLstrip l).getLast? = l.getLast? := by
  conv_rhs => rw [pyLstrip_decomp l]
  rw [List.getLast?_append_of_ne_nil _ h]

/-- Left-stripping a right-stripped string keeps it right-stripped. -/
theorem pyRstrip_pyLstrip {l : List Char} (h : pyRstrip l = l) :
    pyRstrip (pyLstrip l) = pyLstrip l := by
  by_cases hn : pyLstrip l = []
  · rw [hn]
    rfl
  · apply pyRstrip_eq_self
    intro c hc
    rw [getLast?_pyLstrip hn] at hc
    exact pyRstrip_getLast (l := l) (by rw [h]; exact hc)

/-- A non-empty right-stripped string does not left-strip to nothing. -/
theorem pyLstrip_ne_nil {l : List Char} (h1 : l ≠ []) (h2 : pyRstrip l = l) :
    pyLstrip l ≠ [] := by
  intro hl
  have hall : ∀ c ∈ l, pyIsSpace c = true := by
    unfold pyLstrip at hl
    exact List.dropWhile_eq_nil_iff.mp hl
  obtain ⟨c, hc⟩ : ∃ c, l.getLast? = some c := by
    rcases ho : l.getLast? with _ | c
    · exact absurd (List.getLast?_eq_none_iff.mp ho) h1
    · exact ⟨c, rfl⟩
  have h3 := pyRstrip_getLast (l := l) (by rw [h2]; exact hc)
  have h4 := hall c (List.mem_of_getLast?_eq_some hc)
  rw [h3] at h4
  cases h4

/-- Left-stripping an append whose left part does not strip away. -/
theorem pyLstrip_append_of_ne {a : List Char} (b : List Char) (h : pyLstrip a ≠ []) :
    pyLstrip (a ++ b) = pyLstrip a ++ b := by
  unfold pyLstrip
  rw [List.dropWhile_append, if_neg]
  intro hc
  exact h (List.isEmpty_iff.mp hc)

/-! ## Facts about `joinLines` and `filterLines` -/

/-- Joining at least two lines. -/
theorem joinLines_cons_cons (k k2 : List Char) (ks : List (List Char)) :
    joinLines (k :: k2 :: ks) = k ++ '\n' :: joinLines (k2 :: ks) := rfl

/-- The join of non-empty lines is non-empty. -/
theorem joinLines_ne_nil {ks : List (List Char)} (h1 : ks ≠ [])
    (h2 : ∀ l ∈ ks, l ≠ []) : joinLines ks ≠ [] := by
  cases ks with
  | nil => exact absurd rfl h1
  | cons k ks =>
    cases ks with
    | nil => simpa [joinLines] using h2 k (by simp)
    | cons k2 ks2 =>
      rw [joinLines_cons_cons]
      simp

/-- The join of lines starts with the first line. -/
theorem head?_joinLines {k : List Char} {ks : List (List Char)} (h : k ≠ []) :
    (joinLines (k :: ks)).head? = k.head? := by
  cases ks with
  | nil => rfl
  | cons k2 ks2 =>
    rw [joinLines_cons_cons, List.head?_append]
    cases k with
    | nil => exact absurd rfl h
    | cons c t => rfl

/-- The join of right-stripped non-empty lines is right-stripped. -/
theorem pyRstrip_joinLines {ks : List (List Char)}
    (h : ∀ l ∈ ks, l ≠ [] ∧ pyRstrip l = l) :
    pyRstrip (joinLines ks) = joinLines ks := by
  induction ks with
  | nil => rfl
  | cons k ks ih =>
    cases ks with
    | nil => simpa [joinLines] using (h k (by simp)).2
    | cons k2 ks2 =>
      have hJ : pyRstrip (joinLines (k2 :: ks2)) = joinLines (k2 :: ks2) :=
        ih (fun l hl => h l (by simp [hl]))
      have hJne : joinLines (k2 :: ks2) ≠ [] :=
        joinLines_ne_nil (by simp) (fun l hl => (h l (by simp [hl])).1)
      have hNl : pyRstrip ('\n' :: joinLines (k2 :: ks2)) =
          '\n' :: joinLines (k2 :: ks2) := by
        apply pyRstrip_eq_self
        intro c hc
        have he : ('\n' :: joinLines (k2 :: ks2)) = ['\n'] ++ joinLines (k2 :: ks2) := rfl
        rw [he, List.getLast?_append_of_ne_nil _ hJne] at hc
        exact pyRstrip_getLast (l := joinLines (k2 :: ks2)) (by rw [hJ]; exact hc)
      rw [joinLines_cons_cons, pyRstrip_append, hNl, if_neg (by simp)]

/-- Left-stripping a join only strips its first line. -/
theorem pyLstrip_joinLines {k : List Char} {ks : List (List Char)} (h : pyLstrip k ≠ []) :
    pyLstrip (joinLines (k :: ks)) = joinLines (pyLstrip k :: ks) := by
  cases ks with
  | nil => rfl
  | cons k2 ks2 =>
    rw [joinLines_cons_cons, joinLines_cons_cons]
    exact pyLstrip_append_of_ne _ h

/-- Prepending a newline cannot create a fence delimiter. -/
theorem hasTriple_false_cons_newline {r : List Char} (h : hasTriple r = false) :
    hasTriple ('\n' :: r) = false := by
  simp only [hasTriple, Bool.or_eq_false_iff]
  refine ⟨?_, h⟩
  rcases hp : triple.isPrefixOf ('\n' :: r) with _ | _
  · rfl
  · obtain ⟨ys, hys⟩ := triple_isPrefixOf_iff.mp hp
    injection hys with h1 _
    exact absurd h1 (by decide)

/-- Joining two delimiter-free texts with a newline cannot create a fence
delimiter: a delimiter window crossing the boundary would contain the
newline. -/
theorem hasTriple_false_append_newline {a r : List Char} (ha : hasTriple a = false)
    (hr : hasTriple r = false) : hasTriple (a ++ '\n' :: r) = false := by
  induction a with
  | nil => simpa using hasTriple_false_cons_newline hr
  | cons c a ih =>
    simp only [hasTriple, Bool.or_eq_false_iff] at ha
    obtain ⟨ha1, ha2⟩ := ha
    have hrec := ih ha2
    simp only [List.cons_append, hasTriple, Bool.or_eq_false_iff]
    refine ⟨?_, hrec⟩
    rcases hp : triple.isPrefixOf (c :: (a ++ '\n' :: r)) with _ | _
    · rfl
    · exfalso
      obtain ⟨ys, hys⟩ := triple_isPrefixOf_iff.mp hp
      injection hys with h1 h2
      cases a with
      | nil =>
        injection h2 with hx _
        exact absurd hx (by decide)
      | cons x a2 =>
        injection h2 with hx h3
        cases a2 with
        | nil =>
          injection h3 with hy _
          exact absurd hy (by decide)
        | cons y a3 =>
          injection h3 with hy _
          have ht : triple.isPrefixOf (c :: x :: y :: a3) = true :=
            triple_isPrefixOf_iff.mpr ⟨a3, by rw [h1, hx, hy]⟩
          rw [ht] at ha1
          cases ha1

/-- The join of delimiter-free lines is delimiter-free. -/
theorem hasTriple_false_joinLines {ks : List (List Char)}
    (h : ∀ l ∈ ks, hasTriple l = false) : hasTriple (joinLines ks) = false := by
  induction ks with
  | nil => rfl
  | cons k ks ih =>
    cases ks with
    | nil => simpa [joinLines] using h k (by simp)
    | cons k2 ks2 =>
      rw [joinLines_cons_cons]
      exact hasTriple_false_append_newline (h k (by simp))
        (ih (fun l hl => h l (by simp [hl])))

/-- What a kept line looks like. -/
theorem keepLine_eq_some {l r : List Char} (h : keepLine l = some r) :
    r = pyRstrip l ∧ r ≠ [] ∧ isFilteredLine r = false := by
  simp only [keepLine] at h
  by_cases h1 : (pyRstrip l).isEmpty = true
  · rw [if_pos h1] at h
    cases h
  · rw [if_neg h1] at h
    by_cases h2 : isFilteredLine (pyRstrip l) = true
    · rw [if_pos h2] at h
      cases h
    · rw [if_neg h2] at h
      by_cases h3 : (pyLstrip (pyRstrip l)).isEmpty = true
      · rw [if_pos h3] at h
        cases h
      · rw [if_neg h3] at h
        injection h with h
        subst h
        refine ⟨rfl, fun hc => h1 (by simp [hc]), ?_⟩
        rcases hf : isFilteredLine (pyRstrip l) with _ | _
        · rfl
        · exact absurd hf h2

/-- A non-empty, right-stripped, unfiltered line is kept unchanged. -/
theorem keepLine_of_good {l : List Char} (h1 : l ≠ []) (h2 : pyRstrip l = l)
    (h3 : isFilteredLine l = false) : keepLine l = some l := by
  simp only [keepLine, h2]
  rw [if_neg (fun hc => h1 (List.isEmpty_iff.mp hc))]
  rw [if_neg (by simp [h3])]
  rw [if_neg (fun hc => pyLstrip_ne_nil h1 h2 (List.isEmpty_iff.mp hc))]

/-- Every surviving line is non-empty, unfiltered and right-stripped. -/
theorem mem_filterLines {l : List Char} {ls : List (List Char)} (h : l ∈ filterLines ls) :
    l ≠ [] ∧ isFilteredLine l = false ∧ pyRstrip l = l := by
  unfold filterLines at h
  obtain ⟨a, _, ha⟩ := List.mem_filterMap.mp h
  obtain ⟨rfl, hne, hf⟩ := keepLine_eq_some ha
  exact ⟨hne, hf, pyRstrip_idem a⟩

/-- Every surviving line is the right-strip of an input line. -/
theorem mem_filterLines_source {l : List Char} {ls : List (List Char)}
    (h : l ∈ filterLines ls) : ∃ a ∈ ls, l = pyRstrip a := by
  unfold filterLines at h
  obtain ⟨a, ha, hk⟩ := List.mem_filterMap.mp h
  exact ⟨a, ha, (keepLine_eq_some hk).1⟩

/-- The filter keeps a list of good lines unchanged. -/
theorem filterLines_eq_self {ls : List (List Char)} (h : ∀ l ∈ ls, keepLine l = some l) :
    filterLines ls = ls := by
  induction ls with
  | nil => rfl
  | cons a ls ih =>
    show List.filterMap keepLine (a :: ls) = a :: ls
    rw [List.filterMap_cons, h a (by simp)]
    show a :: List.filterMap keepLine ls = a :: ls
    congr 1
    exact ih (fun l hl => h l (by simp [hl]))

/-- The filter drops a list of dropped lines entirely. -/
theorem filterLines_eq_nil {ls : List (List Char)} (h : ∀ l ∈ ls, keepLine l = none) :
    filterLines ls = [] := by
  induction ls with
  | nil => rfl
  | cons a ls ih =>
    show List.filterMap keepLine (a :: ls) = []
    rw [List.filterMap_cons, h a (by simp)]
    show List.filterMap keepLine ls = []
    exact ih (fun l hl => h l (by simp [hl]))

/-- The filter distributes over appends. -/
theorem filterLines_append (xs ys : List (List Char)) :
    filterLines (xs ++ ys) = filterLines xs ++ filterLines ys := by
  unfold filterLines
  exact List.filterMap_append xs ys keepLine

/-! ## The shape of sanitizer output -/

/-- Structure of `clean_code_output`'s result: it is empty, or it is the
join of its own lines, where every line is good (non-empty, right-stripped,
free of boundary characters and fence delimiters), every line after the
first is unfiltered, and the first character is not whitespace. -/
theorem clean_structure (text : List Char) (lang : String) :
    clean_code_output text lang = [] ∨
    ∃ k ks, splitlines (clean_code_output text lang) = k :: ks ∧
      clean_code_output text lang = joinLines (k :: ks) ∧
      (∀ l ∈ k :: ks, goodLine l) ∧
      (∀ l ∈ ks, isFilteredLine l = false) ∧
      (∀ c, k.head? = some c → pyIsSpace c = false) := by
  have hclean : clean_code_output text lang =
      pyStrip (joinLines (filterLines (splitlines (pyStrip (sub2 (sub1 text)))))) := rfl
  have hT3 : hasTriple (pyStrip (sub2 (sub1 text))) = false :=
    hasTriple_false_pyStrip (sub2_no_triple (sub1 text))
  have hln_break := splitlinesAux_no_break [] (pyStrip (sub2 (sub1 text))) (by simp)
  have hln_triple := splitlinesAux_no_triple [] (pyStrip (sub2 (sub1 text)))
    (by simpa using hT3)
  have hkept : ∀ l ∈ filterLines (splitlines (pyStrip (sub2 (sub1 text)))),
      goodLine l ∧ isFilteredLine l = false := by
    intro l hl
    obtain ⟨hne, hf, hr⟩ := mem_filterLines hl
    obtain ⟨a, ha, hla⟩ := mem_filterLines_source hl
    refine ⟨⟨hne, hr, ?_, ?_⟩, hf⟩
    · intro c hc
      exact hln_break a ha c (mem_pyRstrip (by rw [← hla]; exact hc))
    · rw [hla]
      exact hasTriple_false_pyRstrip (hln_triple a ha)
  rcases hk : filterLines (splitlines (pyStrip (sub2 (sub1 text)))) with _ | ⟨k0, ks⟩
  · left
    rw [hclean, hk]
    rfl
  · right
    have hmem : ∀ l ∈ k0 :: ks, goodLine l ∧ isFilteredLine l = false := hk ▸ hkept
    obtain ⟨⟨h0ne, h0r, h0b, h0t⟩, -⟩ := hmem k0 (by simp)
    have hk'ne : pyLstrip k0 ≠ [] := pyLstrip_ne_nil h0ne h0r
    have hgood2 : ∀ l ∈ pyLstrip k0 :: ks, l ≠ [] ∧ pyRstrip l = l := by
      intro l hl
      rcases List.mem_cons.mp hl with rfl | hl2
      · exact ⟨hk'ne, pyRstrip_pyLstrip h0r⟩
      · obtain ⟨⟨a1, a2, -, -⟩, -⟩ := hmem l (by simp [hl2])
        exact ⟨a1, a2⟩
    have hbreakfree : ∀ l ∈ pyLstrip k0 :: ks, l ≠ [] ∧ ∀ c ∈ l, isLineBreak c = false := by
      intro l hl
      rcases List.mem_cons.mp hl with rfl | hl2
      · exact ⟨hk'ne, fun c hc => h0b c (mem_pyLstrip hc)⟩
      · obtain ⟨⟨a1, -, a3, -⟩, -⟩ := hmem l (by simp [hl2])
        exact ⟨a1, a3⟩
    have hLJ : pyLstrip (joinLines (k0 :: ks)) = joinLines (pyLstrip k0 :: ks) :=
      pyLstrip_joinLines hk'ne
    have hRJ : pyRstrip (joinLines (pyLstrip k0 :: ks)) = joinLines (pyLstrip k0 :: ks) :=
      pyRstrip_joinLines hgood2
    have hy : clean_code_output text lang = joinLines (pyLstrip k0 :: ks) := by
      rw [hclean, hk]
      show pyRstrip (pyLstrip (joinLines (k0 :: ks))) = _
      rw [hLJ, hRJ]
    refine ⟨pyLstrip k0, ks, ?_, hy, ?_, ?_, ?_⟩
    · rw [hy]
      exact splitlines_joinLines (by simp) hbreakfree
    · intro l hl
      rcases List.mem_cons.mp hl with rfl | hl2
      · exact ⟨hk'ne, pyRstrip_pyLstrip h0r, fun c hc => h0b c (mem_pyLstrip hc),
          hasTriple_false_pyLstrip h0t⟩
      · exact (hmem l (by simp [hl2])).1
    · intro l hl
      exact (hmem l (by simp [hl])).2
    · intro c hc
      exact pyLstrip_head hc

/-- C10: for every input text and language, the sanitizer's output contains
no triple-backtick fence delimiter, every line of it is non-empty, and no
line of it ends with whitespace. -/
theorem claim_C10 (text : List Char) (lang : String) :
    hasTriple (clean_code_output text lang) = false ∧
    ∀ l ∈ splitlines (clean_code_output text lang),
      l ≠ [] ∧ ∀ c, l.getLast? = some c → pyIsSpace c = false := by
  rcases clean_structure text lang with h | ⟨k, ks, hsplit, heq, hgood, -, -⟩
  · rw [h]
    exact ⟨rfl, by simp [splitlines, splitlinesAux]⟩
  · constructor
    · rw [heq]
      exact hasTriple_false_joinLines (fun l hl => (hgood l hl).2.2.2)
    · rw [hsplit]
      intro l hl
      obtain ⟨a1, a2, -, -⟩ := hgood l hl
      exact ⟨a1, fun c hc => pyRstrip_getLast (l := l) (by rw [a2]; exact hc)⟩

/-- C10 witness: a concrete sanitized output, with its first line's
properties evaluated. -/
theorem claim_C10_witness :
    hasTriple (clean_code_output ("ab\n x ".data) "python") = false ∧
    ("ab".data ≠ List.nil) ∧ pyIsSpace 'b' = false := by
  have h := claim_C10 ("ab\n x ".data) "python"
  have h2 := h.2 ("ab".data) (by decide)
  exact ⟨h.1, h2.1, h2.2 'b' (by decide)⟩

/-- C6 counterexample: the sanitizer is not idempotent.  On
`"note\n  # hi"` the first pass drops the `note` line and the final strip
promotes `"  # hi"` to `"# hi"`; the second pass then filters that line as
a markdown heading, yielding the empty string. -/
theorem claim_C6_counterexample :
    clean_code_output (clean_code_output ("note\n  # hi".data) "python") "python" ≠
      clean_code_output ("note\n  # hi".data) "python" := by
  decide

/-- C6 amended: the sanitizer is idempotent on every input whose sanitized
output does not start with a line that the line filter would discard (a
markdown heading/bullet or a discourse marker); the counterexample shows
idempotence fails without this proviso, because the final strip removes the
first kept line's indentation and can expose such a prefix. -/
theorem claim_C6_amended (text : List Char) (lang : String)
    (h : headNotFiltered (splitlines (clean_code_output text lang)) = true) :
    clean_code_output (clean_code_output text lang) lang =
      clean_code_output text lang := by
  rcases clean_structure text lang with h0 | ⟨k, ks, hsplit, heq, hgood, hfilt, hhead⟩
  · rw [h0]
    rfl
  · have hkfilt : isFilteredLine k = false := by
      rw [hsplit] at h
      simpa [headNotFiltered] using h
    obtain ⟨hkne, hkr, hkb, hkt⟩ := hgood k (by simp)
    have htripY : hasTriple (clean_code_output text lang) = false := by
      rw [heq]
      exact hasTriple_false_joinLines (fun l hl => (hgood l hl).2.2.2)
    have hs1 : sub1 (clean_code_output text lang) = clean_code_output text lang :=
      sub1_eq_self htripY
    have hs2 : sub2 (clean_code_output text lang) = clean_code_output text lang :=
      sub2_eq_self htripY
    have hstrip : pyStrip (clean_code_output text lang) = clean_code_output text lang := by
      show pyRstrip (pyLstrip _) = _
      rw [heq]
      have hL : pyLstrip (joinLines (k :: ks)) = joinLines (k :: ks) := by
        apply pyLstrip_eq_self
        intro c hc
        rw [head?_joinLines hkne] at hc
        exact hhead c hc
      rw [hL]
      exact pyRstrip_joinLines (fun l hl => ⟨(hgood l hl).1, (hgood l hl).2.1⟩)
    have hfl : filterLines (k :: ks) = k :: ks := by
      apply filterLines_eq_self
      intro l hl
      rcases List.mem_cons.mp hl with rfl | hl2
      · exact keepLine_of_good hkne hkr hkfilt
      · obtain ⟨b1, b2, -, -⟩ := hgood l (by simp [hl2])
        exact keepLine_of_good b1 b2 (hfilt l hl2)
    have hrfl : clean_code_output (clean_code_output text lang) lang =
        pyStrip (joinLines (filterLines (splitlines
          (pyStrip (sub2 (sub1 (clean_code_output text lang))))))) := rfl
    rw [hrfl, hs1, hs2, hstrip, hsplit, hfl, ← heq, hstrip]

/-- C6 amended witness. -/
theorem claim_C6_amended_witness :
    headNotFiltered (splitlines (clean_code_output ("foo".data) "python")) = true ∧
    clean_code_output (clean_code_output ("foo".data) "python") "python" =
      clean_code_output ("foo".data) "python" :=
  ⟨by decide, claim_C6_amended ("foo".data) "python" (by decide)⟩

/-! ## Fence extraction -/

/-- Elimination form of `headNotSpace`. -/
theorem headNotSpace_spec {l : List Char} (h : headNotSpace l = true) :
    ∀ c, l.head? = some c → pyIsSpace c = false := by
  intro c hc
  unfold headNotSpace at h
  rw [hc] at h
  simpa using h

/-- Lists sharing a prefix but diverging at the next character are not
prefix-related. -/
theorem isPrefixOf_append_cons_ne {p : List Char} {a b : Char} {q t : List Char}
    (hab : a ≠ b) : (p ++ a :: q).isPrefixOf (p ++ b :: t) = false := by
  induction p with
  | nil => simp [List.isPrefixOf, hab]
  | cons x p ih => simp [List.isPrefixOf, ih]

/-- The opening delimiter of a python-tagged fence. -/
theorem openLen_python (r : List Char) : openLen (fenceOpen tagPython ++ r) = some 10 := by
  unfold openLen
  rw [if_pos (isPrefixOf_self_append _ _)]

/-- The opening delimiter of a julia-tagged fence. -/
theorem openLen_julia (r : List Char) : openLen (fenceOpen tagJulia ++ r) = some 9 := by
  have e1 : fenceOpen tagPython = triple ++ 'p' :: ['y', 't', 'h', 'o', 'n', '\n'] := rfl
  have e2 : fenceOpen tagJulia ++ r = triple ++ 'j' :: (['u', 'l', 'i', 'a', '\n'] ++ r) := rfl
  unfold openLen
  rw [if_neg, if_pos (isPrefixOf_self_append _ _)]
  intro hc
  rw [e1, e2, isPrefixOf_append_cons_ne (by decide)] at hc
  cases hc

/-- The opening delimiter of an html-tagged fence. -/
theorem openLen_html (r : List Char) : openLen (fenceOpen tagHtml ++ r) = some 8 := by
  have e1 : fenceOpen tagPython = triple ++ 'p' :: ['y', 't', 'h', 'o', 'n', '\n'] := rfl
  have e2 : fenceOpen tagJulia = triple ++ 'j' :: ['u', 'l', 'i', 'a', '\n'] := rfl
  have e3 : fenceOpen tagHtml ++ r = triple ++ 'h' :: (['t', 'm', 'l', '\n'] ++ r) := rfl
  unfold openLen
  rw [if_neg, if_neg, if_pos (isPrefixOf_self_append _ _)]
  · intro hc
    rw [e2, e3, isPrefixOf_append_cons_ne (by decide)] at hc
    cases hc
  · intro hc
    rw [e1, e3, isPrefixOf_append_cons_ne (by decide)] at hc
    cases hc

/-- The opening delimiter of a javascript-tagged fence. -/
theorem openLen_javascript (r : List Char) :
    openLen (fenceOpen tagJavascript ++ r) = some 14 := by
  have e1 : fenceOpen tagPython = triple ++ 'p' :: ['y', 't', 'h', 'o', 'n', '\n'] := rfl
  have e2 : fenceOpen tagJulia = (triple ++ ['j']) ++ 'u' :: ['l', 'i', 'a', '\n'] := rfl
  have e3 : fenceOpen tagHtml = triple ++ 'h' :: ['t', 'm', 'l', '\n'] := rfl
  have e4 : fenceOpen tagJavascript ++ r =
      triple ++ 'j' :: (['a', 'v', 'a', 's', 'c', 'r', 'i', 'p', 't', '\n'] ++ r) := rfl
  have e5 : fenceOpen tagJavascript ++ r =
      (triple ++ ['j']) ++ 'a' :: (['v', 'a', 's', 'c', 'r', 'i', 'p', 't', '\n'] ++ r) := rfl
  unfold openLen
  rw [if_neg, if_neg, if_neg, if_pos (isPrefixOf_self_append _ _)]
  · intro hc
    rw [e3, e4, isPrefixOf_append_cons_ne (by decide)] at hc
    cases hc
  · intro hc
    rw [e2, e5, isPrefixOf_append_cons_ne (by decide)] at hc
    cases hc
  · intro hc
    rw [e1, e4, isPrefixOf_append_cons_ne (by decide)] at hc
    cases hc

/-- The opening delimiter of an untagged fence. -/
theorem openLen_untagged (r : List Char) : openLen (fenceOpen [] ++ r) = some 4 := by
  have e1 : fenceOpen tagPython = triple ++ 'p' :: ['y', 't', 'h', 'o', 'n', '\n'] := rfl
  have e2 : fenceOpen tagJulia = triple ++ 'j' :: ['u', 'l', 'i', 'a', '\n'] := rfl
  have e3 : fenceOpen tagHtml = triple ++ 'h' :: ['t', 'm', 'l', '\n'] := rfl
  have e4 : fenceOpen tagJavascript = triple ++ 'j' :: ['a', 'v', 'a', 's', 'c', 'r', 'i', 'p', 't', '\n'] := rfl
  have e5 : fenceOpen [] ++ r = triple ++ '\n' :: r := rfl
  unfold openLen
  rw [if_neg, if_neg, if_neg, if_neg, if_pos (isPrefixOf_self_append _ _)]
  · intro hc
    rw [e4, e5, isPrefixOf_append_cons_ne (by decide)] at hc
    cases hc
  · intro hc
    rw [e3, e5, isPrefixOf_append_cons_ne (by decide)] at hc
    cases hc
  · intro hc
    rw [e2, e5, isPrefixOf_append_cons_ne (by decide)] at hc
    cases hc
  · intro hc
    rw [e1, e5, isPrefixOf_append_cons_ne (by decide)] at hc
    cases hc

/-- Shape of a string beginning with the closing delimiter. -/
theorem closePat_isPrefixOf_iff {xs : List Char} :
    closePat.isPrefixOf xs = true ↔ ∃ ys, xs = '\n' :: bt :: bt :: bt :: ys := by
  cases xs with
  | nil => simp [closePat, triple, List.isPrefixOf]
  | cons A xs =>
    simp only [closePat, List.isPrefixOf, Bool.and_eq_true, beq_iff_eq]
    constructor
    · rintro ⟨h1, h2⟩
      obtain ⟨ys, rfl⟩ := triple_isPrefixOf_iff.mp h2
      exact ⟨ys, by rw [← h1]⟩
    · rintro ⟨ys, h⟩
      injection h with h1 h2
      subst h1
      subst h2
      exact ⟨rfl, triple_isPrefixOf_iff.mpr ⟨ys, rfl⟩⟩

/-- The lazy interior search stops exactly at the appended closing
delimiter when the interior holds no fence delimiter. -/
theorem splitAtClose_boundary {l : List Char} (hl : hasTriple l = false) (P : List Char) :
    splitAtClose (l ++ '\n' :: (triple ++ P)) = some (l, P) := by
  induction l with
  | nil =>
    show splitAtClose ('\n' :: (triple ++ P)) = some ([], P)
    unfold splitAtClose
    rw [if_pos]
    · rfl
    · have he : '\n' :: (triple ++ P) = closePat ++ P := rfl
      rw [he]
      exact isPrefixOf_self_append _ _
  | cons c l ih =>
    simp only [hasTriple, Bool.or_eq_false_iff] at hl
    obtain ⟨h1, h2⟩ := hl
    show splitAtClose (c :: (l ++ '\n' :: (triple ++ P))) = some (c :: l, P)
    unfold splitAtClose
    rw [if_neg, ih h2]
    intro hc
    obtain ⟨ys, hys⟩ := closePat_isPrefixOf_iff.mp hc
    injection hys with hc1 hc2
    cases l with
    | nil =>
      injection hc2 with hx _
      exact absurd hx (by decide)
    | cons x l2 =>
      injection hc2 with hx h3
      cases l2 with
      | nil =>
        injection h3 with hy _
        exact absurd hy (by decide)
      | cons y l3 =>
        injection h3 with hy h4
        cases l3 with
        | nil =>
          injection h4 with hz _
          exact absurd hz (by decide)
        | cons z l4 =>
          injection h4 with hz _
          have ht : triple.isPrefixOf (x :: y :: z :: l4) = true :=
            triple_isPrefixOf_iff.mpr ⟨l4, by rw [hx, hy, hz]⟩
          have h2x : hasTriple (x :: y :: z :: l4) = false := h2
          simp only [hasTriple, Bool.or_eq_false_iff] at h2x
          rw [ht] at h2x
          exact absurd h2x.1 (by simp)

/-- The first substitution on a single well-delimited fenced block:
the delimiters are removed, interior and trailing text are kept. -/
theorem sub1_fence {tag FOO P : List Char}
    (htag : tag ∈ [tagPython, tagJulia, tagHtml, tagJavascript, ([] : List Char)])
    (hF : hasTriple FOO = false) (hP : hasTriple P = false) :
    sub1 (fenceOpen tag ++ (FOO ++ '\n' :: (triple ++ P))) = FOO ++ P := by
  have hs : splitAtClose ((fenceOpen tag ++ (FOO ++ '\n' :: (triple ++ P))).drop
      (fenceOpen tag).length) = some (FOO, P) := by
    rw [List.drop_left]
    exact splitAtClose_boundary hF P
  have ho : openLen (fenceOpen tag ++ (FOO ++ '\n' :: (triple ++ P))) =
      some (fenceOpen tag).length := by
    simp only [List.mem_cons, List.mem_singleton, List.not_mem_nil, or_false] at htag
    rcases htag with rfl | rfl | rfl | rfl | rfl
    · exact openLen_python _
    · exact openLen_julia _
    · exact openLen_html _
    · exact openLen_javascript _
    · exact openLen_untagged _
  rw [sub1_step ho hs, sub1_eq_self hP]

/-- C7 counterexample: trailing prose after the closing fence survives the
sanitizer whenever it does not match a filtered prefix, so the output is
not exactly the fence interior. -/
theorem claim_C7_counterexample :
    clean_code_output ("```python\nx\n```\nThanks".data) "python" = ("x\nThanks".data) ∧
    clean_code_output ("```python\nx\n```\nThanks".data) "python" ≠ ("x".data) := by
  decide

/-- C7 amended: for an input consisting of a single fenced block (tagged
with one of the four known language markers or untagged) whose interior
joins the lines `Ls`, followed by trailing prose `P`, the sanitizer returns
exactly the interior provided that: the interior's lines are non-empty,
right-stripped, unfiltered, free of boundary characters and fence
delimiters, the interior does not start with whitespace, and the trailing
prose starts on a fresh line, holds no fence delimiter, and consists solely
of lines the line filter discards.  Without the provisos on `P` the
original claim fails (see the counterexample); the other provisos are
forced by the strip and line-filter passes that the interior itself
undergoes. -/
theorem claim_C7_amended (tag : List Char) (Ls : List (List Char)) (P : List Char)
    (lang : String)
    (htag : tag ∈ [tagPython, tagJulia, tagHtml, tagJavascript, ([] : List Char)])
    (hLs : Ls ≠ [])
    (hlines : ∀ l ∈ Ls, l ≠ [] ∧ pyRstrip l = l ∧ (∀ c ∈ l, isLineBreak c = false) ∧
      hasTriple l = false ∧ isFilteredLine l = false)
    (hhead : headNotSpace (joinLines Ls) = true)
    (hP : P = [] ∨ ∃ Prest, P = '\n' :: Prest ∧ hasTriple Prest = false ∧
      ∀ l ∈ splitlines (pyRstrip Prest), keepLine l = none) :
    clean_code_output (fenceOpen tag ++ (joinLines Ls ++ '\n' :: (triple ++ P))) lang =
      joinLines Ls := by
  have hhead2 := headNotSpace_spec hhead
  have hF : hasTriple (joinLines Ls) = false :=
    hasTriple_false_joinLines (fun l hl => (hlines l hl).2.2.2.1)
  have hPt : hasTriple P = false := by
    rcases hP with rfl | ⟨Prest, rfl, hPr, -⟩
    · rfl
    · exact hasTriple_false_cons_newline hPr
  have hs1 := sub1_fence htag hF hPt
  have hlines2 : ∀ l ∈ Ls, l ≠ [] ∧ pyRstrip l = l :=
    fun l hl => ⟨(hlines l hl).1, (hlines l hl).2.1⟩
  have hbf : ∀ l ∈ Ls, l ≠ [] ∧ ∀ c ∈ l, isLineBreak c = false :=
    fun l hl => ⟨(hlines l hl).1, (hlines l hl).2.2.1⟩
  have hPS : pyStrip (joinLines Ls) = joinLines Ls := by
    show pyRstrip (pyLstrip (joinLines Ls)) = _
    rw [pyLstrip_eq_self hhead2]
    exact pyRstrip_joinLines hlines2
  have hFL : filterLines Ls = Ls := by
    apply filterLines_eq_self
    intro l hl
    exact keepLine_of_good (hlines l hl).1 (hlines l hl).2.1 (hlines l hl).2.2.2.2
  have hrfl : clean_code_output (fenceOpen tag ++ (joinLines Ls ++ '\n' :: (triple ++ P)))
        lang =
      pyStrip (joinLines (filterLines (splitlines (pyStrip (sub2 (sub1
        (fenceOpen tag ++ (joinLines Ls ++ '\n' :: (triple ++ P))))))))) := rfl
  rw [hrfl, hs1]
  rcases hP with rfl | ⟨Prest, rfl, hPr, hPdrop⟩
  · rw [List.append_nil, sub2_eq_self hF, hPS, splitlines_joinLines hLs hbf, hFL, hPS]
  · have hsub2 : sub2 (joinLines Ls ++ '\n' :: Prest) = joinLines Ls ++ '\n' :: Prest :=
      sub2_eq_self (hasTriple_false_append_newline hF hPr)
    rw [hsub2]
    have hLne : pyLstrip (joinLines Ls) ≠ [] := by
      rw [pyLstrip_eq_self hhead2]
      exact joinLines_ne_nil hLs (fun l hl => (hlines l hl).1)
    have hlstr : pyLstrip (joinLines Ls ++ '\n' :: Prest) =
        joinLines Ls ++ '\n' :: Prest := by
      rw [pyLstrip_append_of_ne _ hLne, pyLstrip_eq_self hhead2]
    have hRJ : pyRstrip (joinLines Ls) = joinLines Ls := pyRstrip_joinLines hlines2
    by_cases hq : (pyRstrip Prest).isEmpty = true
    · have hRnl : pyRstrip ('\n' :: Prest) = [] := by
        have he : ('\n' :: Prest) = ['\n'] ++ Prest := rfl
        rw [he, pyRstrip_append, if_pos hq]
        rfl
      have hps : pyStrip (joinLines Ls ++ '\n' :: Prest) = joinLines Ls := by
        show pyRstrip (pyLstrip _) = _
        rw [hlstr, pyRstrip_append, hRnl]
        simp [hRJ]
      rw [hps, splitlines_joinLines hLs hbf, hFL, hPS]
    · have hRnl : pyRstrip ('\n' :: Prest) = '\n' :: pyRstrip Prest := by
        have he : ('\n' :: Prest) = ['\n'] ++ Prest := rfl
        rw [he, pyRstrip_append, if_neg hq]
        rfl
      have hps : pyStrip (joinLines Ls ++ '\n' :: Prest) =
          joinLines Ls ++ '\n' :: pyRstrip Prest := by
        show pyRstrip (pyLstrip _) = _
        rw [hlstr, pyRstrip_append, hRnl, if_neg (by simp)]
      rw [hps, splitlines_joinLines_append (pyRstrip Prest) hLs hbf, filterLines_append,
        hFL, filterLines_eq_nil hPdrop, List.append_nil, hPS]

/-- C7 amended witness: the interior `x` of a python-tagged fence followed
by a discarded bullet line is returned exactly. -/
theorem claim_C7_amended_witness :
    clean_code_output
        (fenceOpen tagPython ++
          (joinLines [['x']] ++ '\n' :: (triple ++ ('\n' :: ("- done".data)))))
        "python" = joinLines [['x']] :=
  claim_C7_amended tagPython [['x']] ('\n' :: ("- done".data)) "python" (by decide)
    (by decide) (by decide) (by decide)
    (Or.inr ⟨"- done".data, rfl, by decide, by decide⟩)

end Aix
